import Mathlib

/-!
Verification development for the milli ranked-retrieval core.

Each Rust source construct the claims depend on is shallowly embedded as an
executable Lean definition: machine integers become `Nat` (the code never
relies on `u32` overflow in the embedded fragments), `RoaringBitmap` becomes
`Finset Nat`, fallible iterator drains become plain list-producing functions,
and the stateful iterators become explicit state types with step functions.
-/

namespace Milli

set_option maxRecDepth 10000

/-! ## `src/best_proximity.rs` -/

/-- `ONE_ATTRIBUTE` from `best_proximity.rs`. -/
def ONE_ATTRIBUTE : Nat := 1000

/-- `MAX_DISTANCE` from `best_proximity.rs`. -/
def MAX_DISTANCE : Nat := 8

/-- `extract_position`: the attribute and index parts of a position. -/
def extract_position (position : Nat) : Nat × Nat :=
  (position / ONE_ATTRIBUTE, position % ONE_ATTRIBUTE)

/-- `construct_position`: a position from its attribute and index parts. -/
def construct_position (attr index : Nat) : Nat :=
  attr * ONE_ATTRIBUTE + index

/-- Model of `slice::binary_search` restricted to the strictly sorted slices the
code feeds it: returns `(found, i)` where `found` tells whether the probe is in
the list and `i` is the index of the probe when found (`Ok(i)`), otherwise the
insertion point (`Err(i)`). On a strictly sorted list both are the number of
elements smaller than the probe. -/
def bin_search (l : List Nat) (x : Nat) : Bool × Nat :=
  (l.contains x, l.countP (fun y => y < x))

/-- The `2..=7` arm of `best_proximity_for`, behind part: the single position
`current_position - (proximity - 1)` when the subtraction does not underflow
(`checked_sub`), it stays in the current attribute and it is in the list. -/
def behind_mid (current_position proximity : Nat) (next_positions : List Nat) : List Nat :=
  if proximity - 1 ≤ current_position then
    let position := current_position - (proximity - 1)
    if (extract_position current_position).1 = (extract_position position).1 ∧
        (bin_search next_positions position).1 then
      [position]
    else []
  else []

/-- The `2..=7` arm of `best_proximity_for`, front part: the single position
`current_position + proximity` when it stays in the current attribute and is
in the list. -/
def front_mid (current_position proximity : Nat) (next_positions : List Nat) : List Nat :=
  let position := current_position + proximity
  if (extract_position current_position).1 = (extract_position position).1 ∧
      (bin_search next_positions position).1 then
    [position]
  else []

/-- The `8` arm of `best_proximity_for`, behind part: everything up to
`max(current_position - 7, last index of the previous attribute)`, skipped
entirely when the current attribute is the first one (`checked_sub(1)` on the
attribute start fails). -/
def behind_eight (current_position : Nat) (next_positions : List Nat) : List Nat :=
  if 1 ≤ construct_position (extract_position current_position).1 0 then
    let previous_position := construct_position (extract_position current_position).1 0 - 1
    let position := max (current_position - 7) previous_position
    match bin_search next_positions position with
    | (true, i) => next_positions.take (i + 1)
    | (false, i) => if 1 ≤ i then next_positions.take i else []
  else []

/-- The `8` arm of `best_proximity_for`, front part: everything from
`min(current_position + 8, start of the next attribute)` on. -/
def front_eight (current_position : Nat) (next_positions : List Nat) : List Nat :=
  let position := min (current_position + 8)
    (construct_position ((extract_position current_position).1 + 1) 0)
  let (_, i) := bin_search next_positions position
  next_positions.drop i

/-- Fueled body of `best_proximity_for`. The Rust function recurses with
`proximity + 1` and stops returning anything past `8`, so any call chain makes
at most ten nested calls; the fuel makes that recursion structural. -/
def best_proximity_for_go : Nat → Nat → Nat → List Nat → Option (Nat × List Nat)
  | 0, _, _, _ => none
  | fuel + 1, current_position, proximity, next_positions =>
    if proximity = 0 then
      -- look at i+0
      if (bin_search next_positions current_position).1 then
        some (0, [current_position])
      else
        best_proximity_for_go fuel current_position (proximity + 1) next_positions
    else if proximity = 1 then
      -- look at i+1, must not overflow the current attribute
      let position := current_position + 1
      if (extract_position current_position).1 = (extract_position position).1 then
        if (bin_search next_positions position).1 then
          some (1, [position])
        else
          best_proximity_for_go fuel current_position (proximity + 1) next_positions
      else
        best_proximity_for_go fuel current_position (proximity + 1) next_positions
    else if proximity ≤ 7 then
      -- look at i-(p-1) and i+p, in the current attribute only
      let output := behind_mid current_position proximity next_positions ++
        front_mid current_position proximity next_positions
      if output = [] then
        best_proximity_for_go fuel current_position (proximity + 1) next_positions
      else
        some (proximity, output)
    else if proximity = 8 then
      -- look at i+8 and all above, and i-7 and all below,
      -- down to the latest index of the previous attribute
      let output := behind_eight current_position next_positions ++
        front_eight current_position next_positions
      if output = [] then none else some (8, output)
    else
      none

/-- `best_proximity_for` from `best_proximity.rs`. Ten units of fuel cover
every chain `proximity, proximity+1, …, 9`. -/
def best_proximity_for (current_position proximity : Nat) (next_positions : List Nat) :
    Option (Nat × List Nat) :=
  best_proximity_for_go 10 current_position proximity next_positions

/-- The state of the `BestProximity` iterator. -/
structure BestProximity where
  positions : List (List Nat)
  current_proximity : Option (Nat × List (Nat × Nat))

/-- `BestProximity::new`. -/
def BestProximity.new (positions : List (List Nat)) : BestProximity :=
  { positions := positions, current_proximity := none }

/-- `impl Iterator for BestProximity::next` as written in the source: the body
only runs debug printing, never updates `current_proximity`, and always returns
`Some((0, vec![]))` (`output` stays empty and `best_proximity` stays `0`). -/
def BestProximity.next (s : BestProximity) : Option ((Nat × List Nat) × BestProximity) :=
  some ((0, []), s)

/-- Pairwise proximity cost between a chosen position and the next term's
position, as §4.5 of the spec defines it, with forward distances of eight or
more costing the maximal 8 (the spec's catch-all bucket at cost 8 covers every
in-order position eight or more slots ahead). -/
def pair_cost (p q : Nat) : Nat :=
  if (extract_position p).1 ≠ (extract_position q).1 then 8
  else if q = p then 0
  else if p < q then min (q - p) 8
  else min (p - q + 1) 8

/-- What a one-step best-proximity helper should return, per the spec's
contract, relative to the cost function above: `None` exactly when no list
entry achieves cost at least `c` with `p`; otherwise the smallest achievable
cost `c'` at least `c`, together with exactly the list entries achieving
`c'`, in list order. -/
def bpf_ok (p c : Nat) (l : List Nat) : Option (Nat × List Nat) → Prop
  | none => l.filter (fun q => c ≤ pair_cost p q) = []
  | some (c', ps) =>
      c ≤ c' ∧ ps = l.filter (fun q => pair_cost p q = c') ∧ ps ≠ [] ∧
      ∀ q ∈ l, c ≤ pair_cost p q → c' ≤ pair_cost p q

/-! ## `milli/src/criterion.rs`

Texts are embedded as `List Char`. The `anyhow` error values are embedded as an
inductive carrying the data of the two `format!` messages: the
`with_context` at the regex carries `"unknown criterion name: {}"` and the one
at the faceted-set lookup carries the message naming the field that is not a
faceted field. -/

inductive Criterion where
  | Words
  | Typo
  | Proximity
  | Attribute
  | Exactness
  | Asc (field : List Char)
  | Desc (field : List Char)
deriving DecidableEq, Repr

inductive CriterionParseError where
  | unknown_criterion_name (txt : List Char)
  | not_faceted_field (field : List Char)
deriving DecidableEq, Repr

/-- The character class `[\w_-]` of `ASC_DESC_REGEX`, restricted to ASCII word
characters (the embedding only ever applies it to ASCII texts). -/
def is_word_char (c : Char) : Bool :=
  c.isAlphanum || c = '_' || c = '-'

/-- Does `(asc|desc)\(([\w_-]+)\)` match starting exactly at the head of `l`?
Returns the two capture groups. The alternation is unambiguous (the branches
start with distinct characters) and the greedy `[\w_-]+` can only be followed
by `)` when the maximal word-character run is, so the regex crate's
leftmost-first semantics reduce to this deterministic check. -/
def regex_match_at (l : List Char) : Option (List Char × List Char) :=
  if ("asc(".data).isPrefixOf l then
    let rest := l.drop 4
    let run := rest.takeWhile is_word_char
    if run ≠ [] ∧ (rest.drop run.length).take 1 = [')'] then some ("asc".data, run) else none
  else if ("desc(".data).isPrefixOf l then
    let rest := l.drop 5
    let run := rest.takeWhile is_word_char
    if run ≠ [] ∧ (rest.drop run.length).take 1 = [')'] then some ("desc".data, run) else none
  else none

/-- `Regex::captures`: the leftmost match of `ASC_DESC_REGEX` in the text. -/
def regex_captures : List Char → Option (List Char × List Char)
  | [] => none
  | c :: cs =>
    match regex_match_at (c :: cs) with
    | some m => some m
    | none => regex_captures cs

/-- `Criterion::from_str`. The faceted attribute set is a list of field
names; the successive branches mirror the `match txt` in the source. -/
def Criterion.from_str (faceted_attributes : List (List Char)) (txt : List Char) :
    Except CriterionParseError Criterion :=
  if txt = "words".data then .ok .Words
  else if txt = "typo".data then .ok .Typo
  else if txt = "proximity".data then .ok .Proximity
  else if txt = "attribute".data then .ok .Attribute
  else if txt = "exactness".data then .ok .Exactness
  else
    match regex_captures txt with
    | none => .error (.unknown_criterion_name txt)
    | some (order, field_name) =>
      if field_name ∈ faceted_attributes then
        if order = "asc".data then .ok (.Asc field_name)
        else if order = "desc".data then .ok (.Desc field_name)
        else .error (.unknown_criterion_name order)
      else .error (.not_faceted_field field_name)

/-- `impl fmt::Display for Criterion`. -/
def Criterion.display : Criterion → List Char
  | .Words => "words".data
  | .Typo => "typo".data
  | .Proximity => "proximity".data
  | .Attribute => "attribute".data
  | .Exactness => "exactness".data
  | .Asc attr => "asc(".data ++ attr ++ ")".data
  | .Desc attr => "desc(".data ++ attr ++ ")".data

/-- `default_criteria`. -/
def default_criteria : List Criterion :=
  [.Words, .Typo, .Proximity, .Attribute, .Exactness]

/-! ## `milli/src/search/facet/facet_range.rs`

A facet tree entry for one field: its level, its value range and its document
bitmap. Facet values are embedded as `Nat`; the generic `T` of the Rust code is
ordered, `Copy` and `Bounded`, so where `T::min_value()`/`T::max_value()`
matter they appear as explicit `min_value`/`max_value` parameters. -/

structure FacetEntry where
  level : Nat
  left : Nat
  right : Nat
  docs : Finset Nat
deriving DecidableEq

/-- `std::ops::Bound` for facet values. -/
inductive FacetBound where
  | included (x : Nat)
  | excluded (x : Nat)
  | unbounded
deriving DecidableEq, Repr

/-- The per-entry end check shared by `FacetRange::next` and
`FacetRevRange::next` (`must_be_returned`). -/
def must_be_returned (e : FacetBound) (right : Nat) : Bool :=
  match e with
  | .included e => right ≤ e
  | .excluded e => right < e
  | .unbounded => true

/-- Draining `FacetRange::next`: the underlying scan is the entry list in key
order; the first entry failing the end check returns `None`, which ends the
drain. -/
def facet_range_drain (e : FacetBound) : List FacetEntry → List FacetEntry
  | [] => []
  | x :: xs =>
    if must_be_returned e x.right then x :: facet_range_drain e xs
    else []

/-- Draining `FacetRevRange::next`: the input list is the underlying scan in
reverse key order; entries failing the end check are skipped (`continue`) and
the loop keeps scanning. -/
def facet_rev_range_drain (e : FacetBound) : List FacetEntry → List FacetEntry
  | [] => []
  | x :: xs =>
    if must_be_returned e x.right then x :: facet_rev_range_drain e xs
    else facet_rev_range_drain e xs

/-- A full facet tree key `(field_id, level, range_low, range_high)`. -/
abbrev FacetKey := Nat × Nat × Nat × Nat

/-- Strict lexicographic order on facet tree keys (the byte order of the
encoded keys, since the encoding is order-preserving fixed-width big-endian
per component). -/
def facet_key_lt (a b : FacetKey) : Bool :=
  a.1 < b.1 || (a.1 = b.1 && (a.2.1 < b.2.1 || (a.2.1 = b.2.1 &&
    (a.2.2.1 < b.2.2.1 || (a.2.2.1 = b.2.2.1 && a.2.2.2 < b.2.2.2)))))

/-- Lexicographic order on facet tree keys. -/
def facet_key_le (a b : FacetKey) : Bool :=
  facet_key_lt a b || a = b

/-- The key range iterated by `FacetRange::new` (and, before reversal, by
`FacetRevRange::new`): the stored entries admitted by the composed
`left_bound`/`right_bound` pair, in key order. `min_value`/`max_value` stand
for `T::min_value()`/`T::max_value()`. -/
def facet_range_scan (min_value max_value : Nat) (table : List (FacetKey × Finset Nat))
    (field_id level : Nat) (left : FacetBound) : List (FacetKey × Finset Nat) :=
  let left_ok : FacetKey → Bool :=
    match left with
    | .included l => fun k => facet_key_le (field_id, level, l, min_value) k
    | .excluded l => fun k => facet_key_lt (field_id, level, l, min_value) k
    | .unbounded => fun k => facet_key_le (field_id, level, min_value, min_value) k
  let right_ok : FacetKey → Bool := fun k => facet_key_le k (field_id, level, max_value, max_value)
  table.filter (fun e => left_ok e.1 && right_ok e.1)

/-- The key range iterated by `FacetRevRange::new`: the same admitted entries,
visited in reverse key order. -/
def facet_rev_range_scan (min_value max_value : Nat) (table : List (FacetKey × Finset Nat))
    (field_id level : Nat) (left : FacetBound) : List (FacetKey × Finset Nat) :=
  (facet_range_scan min_value max_value table field_id level left).reverse

/-! ## `milli/src/search/facet/facet_iter.rs`

The facet tree of one field is a list of `FacetEntry` in key order (the field
id component is constant and dropped). A stack frame of `level_iters` is the
triple of its remaining document set, the level its range iterator runs at and
the entries that iterator has still to produce. The stack is kept top-first
(the Rust code appends at the back and works on `last_mut`). -/

abbrev FacetFrame := Finset Nat × Nat × List FacetEntry

/-- The entries of a facet table at one level, in key order. -/
def level_entries (table : List FacetEntry) (k : Nat) : List FacetEntry :=
  table.filter (fun e => e.level = k)

/-- `FacetIter::highest_level`: the level of the last entry of the field's
prefix scan (the table is in key order, so that is the highest stored level),
`0` when the table is empty (`unwrap_or(0)`). -/
def highest_level (table : List FacetEntry) : Nat :=
  match table.getLast? with
  | some e => e.level
  | none => 0

/-- The pending entries of a `FacetRange::new(.., level = k, Included l,
Included r)` sub-iterator as `FacetIter::next` pushes them: the scan starts at
the composed key `(k, l, min_value)` — every level-`k` entry whose `range_low`
is at least `l` — and the `Included r` end check cuts the drain at the first
entry whose `range_high` exceeds `r`. -/
def sub_entries (table : List FacetEntry) (k l r : Nat) : List FacetEntry :=
  ((level_entries table k).filter (fun e => l ≤ e.left)).takeWhile (fun e => e.right ≤ r)

/-- Fuel sufficient for one pending entry at a given level: consuming a
level-`k+1` entry may push at most `n` level-`k` entries (`n` bounds the table
size). -/
def frame_fuel (n : Nat) : Nat → Nat
  | 0 => 1
  | k + 1 => n * frame_fuel n k + 2

/-- Fuel sufficient to drain a whole stack. -/
def state_fuel (n : Nat) : List FacetFrame → Nat
  | [] => 0
  | (_, lvl, pending) :: rest => frame_fuel n lvl * pending.length + 1 + state_fuel n rest

/-- Draining `FacetIter::next` (ascending, `must_reduce = true`) to
exhaustion, fueled. Each step mirrors one turn of the Rust loops: an empty
remaining set or an exhausted iterator pops the frame; an entry whose bitmap
meets the remaining set is either emitted (level 0) or expanded into a pushed
level-below frame, the remaining set being reduced either way; other entries
are skipped. -/
def facet_iter_drain_go (table : List FacetEntry) : Nat → List FacetFrame → List (Nat × Finset Nat)
  | 0, _ => []
  | _ + 1, [] => []
  | fuel + 1, (documents_ids, lvl, pending) :: rest =>
    if documents_ids = ∅ then facet_iter_drain_go table fuel rest
    else
      match pending with
      | [] => facet_iter_drain_go table fuel rest
      | e :: es =>
        let docids := e.docs ∩ documents_ids
        if docids = ∅ then facet_iter_drain_go table fuel ((documents_ids, lvl, es) :: rest)
        else
          let reduced := documents_ids \ docids
          match lvl with
          | 0 => (e.left, docids) :: facet_iter_drain_go table fuel ((reduced, 0, es) :: rest)
          | k + 1 =>
            facet_iter_drain_go table fuel
              ((docids, k, sub_entries table k e.left e.right) :: (reduced, lvl, es) :: rest)

/-- The full drain of a reducing `FacetIter`, with enough fuel that the fuel
never runs out (`facet_iter_fuel_sufficient` below). -/
def facet_iter_drain (table : List FacetEntry) (s : List FacetFrame) : List (Nat × Finset Nat) :=
  facet_iter_drain_go table (state_fuel table.length s + 1) s

/-- `FacetIter::new_reducing`: one frame holding the starting documents and the
unbounded scan of the highest stored level. -/
def new_reducing (table : List FacetEntry) (documents_ids : Finset Nat) : List FacetFrame :=
  [(documents_ids, highest_level table, level_entries table (highest_level table))]

/-- Union of the bitmaps of a list of facet entries. -/
def union_docs (l : List FacetEntry) : Finset Nat :=
  l.foldr (fun e acc => e.docs ∪ acc) ∅

/-- Union of a list of bitmaps. -/
def union_list (l : List (Finset Nat)) : Finset Nat :=
  l.foldr (· ∪ ·) ∅

/-- The union of the remaining document sets of a stack of frames. -/
def stack_rems : List FacetFrame → Finset Nat
  | [] => ∅
  | f :: rest => f.1 ∪ stack_rems rest

/-- The documents a stack of frames can still deliver: per frame, its
remaining set restricted to what its pending entries hold. -/
def stack_goal : List FacetFrame → Finset Nat
  | [] => ∅
  | f :: rest => (f.1 ∩ union_docs f.2.2) ∪ stack_goal rest

/-- Strict key order on the (constant-field) facet tree: levels, then ranges,
lexicographically. -/
def facet_entry_key_lt (a b : FacetEntry) : Bool :=
  a.level < b.level || (a.level = b.level && (a.left < b.left ||
    (a.left = b.left && a.right < b.right)))

/-- The facet-tree invariants of §3 of the spec, exactly as stated there (plus
the key-order storage assumption): entries stored in strictly increasing key
order; level-0 entries carry one value; within each level ranges are pairwise
disjoint; the union of each level's ranges covers every level-0 value; and a
bitmap above level 0 is the union of the level-0 bitmaps inside its range.
All level quantifiers are bounded by the highest stored level, which makes the
predicate decidable; levels above it store nothing, so the bound loses no
content. -/
abbrev spec_facet_invariants (table : List FacetEntry) : Prop :=
  List.Pairwise (fun a b => facet_entry_key_lt a b = true) table ∧
  (∀ e ∈ level_entries table 0, e.left = e.right) ∧
  (∀ k ∈ List.range (highest_level table + 1),
    List.Pairwise (fun a b => a.right < b.left ∨ b.right < a.left) (level_entries table k)) ∧
  (∀ k ∈ List.range (highest_level table + 1), ∀ e0 ∈ level_entries table 0,
    ∃ e ∈ level_entries table k, e.left ≤ e0.left ∧ e0.left ≤ e.right) ∧
  (∀ k ∈ List.range (highest_level table + 1), 1 ≤ k → ∀ e ∈ level_entries table k,
    e.docs = union_docs ((level_entries table 0).filter
      (fun e0 => e.left ≤ e0.left ∧ e0.right ≤ e.right)))

/-- The conclusion claimed for a reducing drain: the emitted bitmaps are
pairwise disjoint and their union is the starting set intersected with the
documents that have the facet field (the union of the level-0 bitmaps). -/
abbrev reducing_drain_ok (table : List FacetEntry) (start : Finset Nat) : Prop :=
  List.Pairwise (fun a b => a ∩ b = ∅)
    ((facet_iter_drain table (new_reducing table start)).map (·.2)) ∧
  union_list ((facet_iter_drain table (new_reducing table start)).map (·.2)) =
    start ∩ union_docs (level_entries table 0)

/-! ## `milli/src/search/criteria/final.rs`

The parent criterion is embedded as the list of buckets it will deliver across
a drain; `resolve_query_tree` and `Context::documents_ids` live outside the
sources under verification, so they enter as parameters (an arbitrary
resolution function over an arbitrary query-tree type, and the bitmap of all
documents). -/

structure CriterionResult (QT : Type) where
  query_tree : Option QT
  candidates : Option (Finset Nat)
  bucket_candidates : Finset Nat

structure FinalResult (QT : Type) where
  query_tree : Option QT
  candidates : Finset Nat
  bucket_candidates : Finset Nat

/-- One call of `Final::next`: take the parent's next bucket; when its
candidates are absent materialize them by resolving its query tree (or loading
all documents) and fold them into `bucket_candidates`; record them in
`returned_candidates`; emit. The `excluded_candidates` argument is merged with
`returned_candidates` before being handed to the parent (code line 40), which
in this embedding only matters through the contract hypotheses on the bucket
list. -/
def final_next {QT : Type} (documents_ids : Finset Nat) (resolve : QT → Finset Nat)
    (_excluded_candidates : Finset Nat) :
    List (CriterionResult QT) × Finset Nat →
      Option (FinalResult QT × (List (CriterionResult QT) × Finset Nat))
  | ([], _) => none
  | (b :: bs, returned_candidates) =>
    let candidates :=
      match b.candidates with
      | some c => c
      | none =>
        match b.query_tree with
        | some qt => resolve qt
        | none => documents_ids
    let bucket_candidates :=
      match b.candidates with
      | some _ => b.bucket_candidates
      | none => b.bucket_candidates ∪ candidates
    some ({ query_tree := b.query_tree, candidates := candidates,
            bucket_candidates := bucket_candidates },
          (bs, returned_candidates ∪ candidates))

/-- Draining `Final::next` to exhaustion with an empty external excluded set. -/
def final_drain {QT : Type} (documents_ids : Finset Nat) (resolve : QT → Finset Nat) :
    List (CriterionResult QT) → Finset Nat → List (FinalResult QT)
  | [], _ => []
  | b :: bs, returned_candidates =>
    let candidates :=
      match b.candidates with
      | some c => c
      | none =>
        match b.query_tree with
        | some qt => resolve qt
        | none => documents_ids
    let bucket_candidates :=
      match b.candidates with
      | some _ => b.bucket_candidates
      | none => b.bucket_candidates ∪ candidates
    { query_tree := b.query_tree, candidates := candidates,
      bucket_candidates := bucket_candidates } ::
      final_drain documents_ids resolve bs (returned_candidates ∪ candidates)

/-! ## `src/bin/indexer.rs`

A corpus is a list of documents (the CSV records, headers aside), each a list
of field contents; document ids are the records' positions, as generated by
the global counter starting at `0`. Terms are `List Char`; `word.len() < 500`
is a byte bound that coincides with the character count on the ASCII contents
considered here, and `cow_to_lowercase` is `Char.toLower` likewise. -/

/-- `MAX_POSITION` from `indexer.rs`. -/
def MAX_POSITION : Nat := 1000

/-- `MAX_ATTRIBUTES` from `indexer.rs`. -/
def MAX_ATTRIBUTES : Nat := (2 ^ 32 - 1) / MAX_POSITION

/-- `simple_alphanumeric_tokens`: the maximal alphanumeric runs of a string. -/
def simple_alphanumeric_tokens (s : List Char) : List (List Char) :=
  (List.splitOnP (fun c => !c.isAlphanum) s).filter (fun w => w ≠ [])

/-- The `(lowercased word, position)` pairs one document contributes in
`index_csv`: fields are enumerated (capped at `MAX_ATTRIBUTES`), each field's
tokens are enumerated (capped at `MAX_POSITION`), words of byte length 500 or
more are dropped, and the position is `attr * 1000 + pos`. -/
def doc_word_positions (document : List (List Char)) : List (List Char × Nat) :=
  (document.enum.take MAX_ATTRIBUTES).flatMap (fun ac =>
    ((simple_alphanumeric_tokens ac.2).enum.take MAX_POSITION).filterMap (fun pw =>
      if pw.2 ≠ [] ∧ pw.2.length < 500 then
        some (pw.2.map Char.toLower, ac.1 * 1000 + pw.1)
      else none))

/-- Every `(word, position, document_id)` triple of a corpus: the contents the
indexer accumulates into `postings_ids` (a map from word to a map keyed by the
*position* — the code inserts `position` into the `FastMap4<AttributeId, _>`
field). -/
def corpus_postings (corpus : List (List (List Char))) : List (List Char × Nat × Nat) :=
  corpus.enum.flatMap (fun dd =>
    (doc_word_positions dd.2).map (fun wp => (wp.1, wp.2, dd.1)))

/-- Byte-lexicographic strict order on words (the `fst` streaming order). -/
def word_lt : List Char → List Char → Bool
  | [], [] => false
  | [], _ :: _ => true
  | _ :: _, [] => false
  | a :: as, b :: bs => a < b || (a = b && word_lt as bs)

/-- Non-strict byte-lexicographic order on words. -/
def word_le (a b : List Char) : Bool :=
  word_lt a b || a = b

/-- Insert into a list sorted by `le`. -/
def insert_sorted {α : Type} (le : α → α → Bool) (x : α) : List α → List α
  | [] => [x]
  | y :: ys => if le x y then x :: y :: ys else y :: insert_sorted le x ys

/-- Insertion sort by `le` (the orders used below are total, and the sorted
keys are distinct, so this is the unique sorted arrangement — the iteration
order of a `BTreeMap` or of an fst stream). -/
def sort_by {α : Type} (le : α → α → Bool) (l : List α) : List α :=
  l.foldr (insert_sorted le) []

/-- The tag-`3` section `MtblKvStore::from_indexed` writes: for each word of
the words fst in byte order, for each key of the `BTreeMap` built from
`postings_ids[word]` in increasing order, the pair of the composed key — word
bytes followed by the big-endian `u32` of that map key — and the accumulated
document bitmap. The composed keys keep the map key as a plain `Nat` next to
the word, which loses nothing of the byte encoding. -/
def tag3_entries (corpus : List (List (List Char))) : List ((List Char × Nat) × Finset Nat) :=
  let triples := corpus_postings corpus
  let words := sort_by word_le ((triples.map (·.1)).dedup)
  words.flatMap (fun w =>
    let keys := sort_by (fun a b => a ≤ b)
      (((triples.filter (fun t => t.1 = w)).map (fun t => t.2.1)).dedup)
    keys.map (fun p =>
      ((w, p), ((triples.filter (fun t => t.1 = w ∧ t.2.1 = p)).map (fun t => t.2.2)).toFinset)))

/-- The documents whose field `attr` contains `term` — what a tag-`3` value
keyed by `(term, attr)` should hold according to the posting-table
specification. -/
def docs_with_term_in_attr (corpus : List (List (List Char))) (term : List Char) (attr : Nat) :
    Finset Nat :=
  ((corpus.enum.filter (fun dd =>
    (doc_word_positions dd.2).any (fun wp => wp.1 = term ∧ wp.2 / 1000 = attr))).map (·.1)).toFinset

/-! ## Claim C1 — the `BestProximity` iterator -/

/-- C1: the claim states that on position lists `[[0,2,3,4],[1],[3,6]]` the
iterator yields `(3,[0,1,3])`, …, `(9,[4,1,6])` and then `None`. The shipped
`next` body is a stub: it returns `Some((0, vec![]))` from every state without
touching the state, so the first call already disagrees with the claimed first
tuple and no call ever returns `None`. (The `same_attribute` unit test in the
same file asserts the claimed sequence, so the code contradicts its own test.) -/
theorem c1_best_proximity_next_stub :
    (∀ s : BestProximity, BestProximity.next s = some ((0, []), s)) ∧
    ((0, ([] : List Nat)) ≠ ((3 : Nat), [0, 1, 3])) := by
  refine ⟨fun s => rfl, by decide⟩

/-! ## Claim C6 — concrete evaluations of `best_proximity_for` -/

/-- C6: the seven listed input/output pairs of `best_proximity_for`, including
the cross-attribute case where the in-window position `1000` is excluded. -/
theorem c6_best_proximity_for_cases :
    best_proximity_for 0 0 [0] = some (0, [0]) ∧
    best_proximity_for 0 1 [0] = none ∧
    best_proximity_for 1 1 [0] = some (2, [0]) ∧
    best_proximity_for 0 1 [0, 1] = some (1, [1]) ∧
    best_proximity_for 1 2 [0, 2] = some (2, [0]) ∧
    best_proximity_for 1 2 [0, 3] = some (2, [0, 3]) ∧
    best_proximity_for 1004 8 [900, 913, 1000, 1012, 2012] =
      some (8, [900, 913, 1012, 2012]) := by
  decide

/-! ## Claim C9 — the tag-3 section written by the indexer -/

/-- C9: the claim states that tag-3 keys append the big-endian `u32`
*attribute* id to the term and map to the documents containing the term in
that attribute. On the one-document corpus whose only attribute holds
"hello world", the indexer writes `("world", 1)` — the `u32` is the position
`0 * 1000 + 1`, not the attribute `0` — and no tag-3 key pairs "world" with
its attribute `0` even though document `0` contains "world" in attribute `0`. -/
theorem c9_tag3_positions_not_attributes :
    tag3_entries [["hello world".data]] =
      [(("hello".data, 0), {0}), (("world".data, 1), {0})] ∧
    docs_with_term_in_attr [["hello world".data]] "world".data 0 = {0} ∧
    (∀ e ∈ tag3_entries [["hello world".data]], e.1 ≠ ("world".data, 0)) := by
  decide

/-! ## Claim C5 — the bounded facet range iterators -/

/-- C5 counterexample: the claim states that in *either* direction the
iteration terminates at the first scanned entry whose `range_high` exceeds the
bound. In the reverse direction the first scanned entry below fails the
`Included 10` end check, yet the iterator still yields the following entry:
`FacetRevRange::next` loops with `continue` instead of returning `None`. -/
theorem c5_counterexample :
    must_be_returned (FacetBound.included 10) (⟨1, 5, 20, ∅⟩ : FacetEntry).right = false ∧
    facet_rev_range_drain (FacetBound.included 10)
      [⟨1, 5, 20, ∅⟩, ⟨1, 0, 3, ∅⟩] = [⟨1, 0, 3, ∅⟩] := by
  decide

/-- C5 amended: the forward `FacetRange` terminates at the first scanned entry
failing the end check (its drain is a `takeWhile`), while the reverse
`FacetRevRange` skips such entries and keeps scanning (its drain is a
`filter`); in both directions every emitted entry respects `high_bound`. -/
theorem c5_range_drain_amended (e : FacetBound) (l : List FacetEntry) :
    facet_range_drain e l = l.takeWhile (fun x => must_be_returned e x.right) ∧
    facet_rev_range_drain e l = l.filter (fun x => must_be_returned e x.right) := by
  induction l with
  | nil => exact ⟨rfl, rfl⟩
  | cons x xs ih =>
    constructor
    · by_cases h : must_be_returned e x.right
      · simp [facet_range_drain, h, List.takeWhile, ih.1]
      · simp [facet_range_drain, h, List.takeWhile]
    · by_cases h : must_be_returned e x.right
      · simp [facet_rev_range_drain, h, ih.2]
      · simp [facet_rev_range_drain, h, ih.2]

/-! ## Claim C2 — draining the finalizer -/

/-- C2 counterexample: the claim's contract hypothesis only constrains bucket
candidates *when present*. Over a one-document corpus, a parent yielding two
buckets with absent candidates (and absent query trees) satisfies that
contract vacuously, yet `Final::next` re-materializes all documents for each
such bucket without removing `returned_candidates`, so the drain emits `{0}`
twice — the emitted candidates are not pairwise disjoint. -/
theorem c2_counterexample :
    (∀ b ∈ ([⟨none, none, ∅⟩, ⟨none, none, ∅⟩] : List (CriterionResult Unit)),
      b.candidates = none) ∧
    (final_drain ({0} : Finset Nat) (fun _ : Unit => ∅)
        [⟨none, none, ∅⟩, ⟨none, none, ∅⟩] ∅).map (·.candidates) = [{0}, {0}] ∧
    ¬ List.Pairwise (fun a b : Finset Nat => a ∩ b = ∅) [({0} : Finset Nat), {0}] := by
  decide

/-- Draining `Final::next` passes explicitly carried candidates through
unchanged, whatever the already-returned set is. -/
theorem final_drain_map_candidates {QT : Type} (documents_ids : Finset Nat)
    (resolve : QT → Finset Nat) (buckets : List (CriterionResult QT)) :
    ∀ returned : Finset Nat, (∀ b ∈ buckets, b.candidates ≠ none) →
      (final_drain documents_ids resolve buckets returned).map (·.candidates) =
        buckets.map (fun b => b.candidates.getD ∅) := by
  induction buckets with
  | nil => intro returned _; rfl
  | cons b bs ih =>
    intro returned hsome
    match hc : b.candidates with
    | none => exact absurd hc (hsome b (by simp))
    | some c =>
      simp only [final_drain, hc, List.map_cons, Option.getD_some, List.cons.injEq]
      exact ⟨trivial, ih _ (fun x hx => hsome x (by simp [hx]))⟩

/-- C2 amended: for every parent whose buckets all carry explicit candidates,
pairwise disjoint (equivalently: each disjoint from the union of the earlier
ones, which is the `excluded_candidates` the finalizer passes to the parent
when the external excluded set is empty), draining `Final::next` emits exactly
those candidates: they are pairwise disjoint and their union is the union of
the parent's bucket candidates. The original conclusion — union equal to the
query-tree resolution — only follows when the parent's buckets additionally
cover that resolution, which the criterion contract alone does not force. -/
theorem c2_final_drain_amended {QT : Type} (documents_ids : Finset Nat)
    (resolve : QT → Finset Nat) (buckets : List (CriterionResult QT))
    (hsome : ∀ b ∈ buckets, b.candidates ≠ none)
    (hdisj : List.Pairwise
      (fun a b => a.candidates.getD ∅ ∩ b.candidates.getD ∅ = ∅) buckets) :
    (final_drain documents_ids resolve buckets ∅).map (·.candidates) =
      buckets.map (fun b => b.candidates.getD ∅) ∧
    List.Pairwise (fun a b : Finset Nat => a ∩ b = ∅)
      ((final_drain documents_ids resolve buckets ∅).map (·.candidates)) ∧
    union_list ((final_drain documents_ids resolve buckets ∅).map (·.candidates)) =
      union_list (buckets.map (fun b => b.candidates.getD ∅)) := by
  have hmap := final_drain_map_candidates documents_ids resolve buckets ∅ hsome
  refine ⟨hmap, ?_, by rw [hmap]⟩
  rw [hmap, List.pairwise_map]
  exact hdisj

/-- Closed instance of the amended C2 theorem: a two-bucket parent with
explicit disjoint candidates drains to those candidates. -/
theorem c2_final_drain_amended_witness :
    ((∀ b ∈ ([⟨none, some {1}, ∅⟩, ⟨none, some {2, 3}, ∅⟩] : List (CriterionResult Unit)),
        b.candidates ≠ none) ∧
      List.Pairwise
        (fun a b => a.candidates.getD ∅ ∩ b.candidates.getD ∅ = ∅)
        ([⟨none, some {1}, ∅⟩, ⟨none, some {2, 3}, ∅⟩] : List (CriterionResult Unit))) ∧
    ((final_drain ({0, 1, 2, 3} : Finset Nat) (fun _ : Unit => ∅)
        [⟨none, some {1}, ∅⟩, ⟨none, some {2, 3}, ∅⟩] ∅).map (·.candidates) =
      ([⟨none, some {1}, ∅⟩, ⟨none, some {2, 3}, ∅⟩] : List (CriterionResult Unit)).map
        (fun b => b.candidates.getD ∅) ∧
      List.Pairwise (fun a b : Finset Nat => a ∩ b = ∅)
        ((final_drain ({0, 1, 2, 3} : Finset Nat) (fun _ : Unit => ∅)
          [⟨none, some {1}, ∅⟩, ⟨none, some {2, 3}, ∅⟩] ∅).map (·.candidates)) ∧
      union_list ((final_drain ({0, 1, 2, 3} : Finset Nat) (fun _ : Unit => ∅)
          [⟨none, some {1}, ∅⟩, ⟨none, some {2, 3}, ∅⟩] ∅).map (·.candidates)) =
        union_list (([⟨none, some {1}, ∅⟩, ⟨none, some {2, 3}, ∅⟩] :
          List (CriterionResult Unit)).map (fun b => b.candidates.getD ∅))) :=
  ⟨⟨by decide, by decide⟩,
    c2_final_drain_amended {0, 1, 2, 3} (fun _ : Unit => ∅)
      [⟨none, some {1}, ∅⟩, ⟨none, some {2, 3}, ∅⟩] (by decide) (by decide)⟩

/-! ## Claim C10 — `Excluded` lower bounds on the facet scans -/

/-- C10: an `Excluded(v)` left bound composes to `Excluded((field_id, level,
v, T::min_value()))`, which removes only that single key from the scanned
range: every stored entry at `range_low = v` with `range_high` above the
minimum value is still inside the range both constructors iterate, and any key
the `Included(v)` range has but the `Excluded(v)` range lacks is exactly the
composed key. -/
theorem c10_excluded_left_bound (min_value max_value : Nat)
    (table : List (FacetKey × Finset Nat)) (field_id level v : Nat)
    (e : FacetKey × Finset Nat) (he : e ∈ table)
    (hf : e.1.1 = field_id) (hl : e.1.2.1 = level) (hv : e.1.2.2.1 = v)
    (hr : min_value < e.1.2.2.2) (hvmax : v ≤ max_value) (hrmax : e.1.2.2.2 ≤ max_value) :
    e ∈ facet_range_scan min_value max_value table field_id level (.excluded v) ∧
    e ∈ facet_rev_range_scan min_value max_value table field_id level (.excluded v) ∧
    ∀ k ∈ facet_range_scan min_value max_value table field_id level (.included v),
      k ∉ facet_range_scan min_value max_value table field_id level (.excluded v) →
      k.1 = (field_id, level, v, min_value) := by
  obtain ⟨⟨a, b, c, d⟩, s⟩ := e
  simp only at hf hl hv hr hrmax
  subst hf hl hv
  have hmem : (((a, b, c, d), s) : FacetKey × Finset Nat) ∈
      facet_range_scan min_value max_value table a b (.excluded c) := by
    simp only [facet_range_scan, List.mem_filter, facet_key_lt, facet_key_le,
      Bool.and_eq_true, Bool.or_eq_true, decide_eq_true_eq, Prod.mk.injEq,
      true_and, and_true]
    exact ⟨he, by omega, by omega⟩
  refine ⟨hmem, by simpa [facet_rev_range_scan] using hmem, ?_⟩
  intro k hk hnk
  obtain ⟨⟨ka, kb, kc, kd⟩, ks⟩ := k
  simp only [facet_range_scan, List.mem_filter, facet_key_lt, facet_key_le,
    Bool.and_eq_true, Bool.or_eq_true, decide_eq_true_eq, Prod.mk.injEq,
    true_and, and_true, not_and, not_or, not_lt] at hk hnk
  obtain ⟨hkt, hklo, hkhi⟩ := hk
  have hne := hnk hkt
  simp only [Prod.mk.injEq]
  omega

/-- Closed instance of C10: a level-0 entry whose value equals the excluded
left bound is still scanned by both constructors. -/
theorem c10_excluded_left_bound_witness :
    ((((3, 0, 5, 5), {7}) : FacetKey × Finset Nat) ∈ [(((3, 0, 5, 5), {7}) : FacetKey × Finset Nat)] ∧
      (0 : Nat) < 5 ∧ (5 : Nat) ≤ 100) ∧
    ((((3, 0, 5, 5), {7}) : FacetKey × Finset Nat) ∈
        facet_range_scan 0 100 [(((3, 0, 5, 5), {7}) : FacetKey × Finset Nat)] 3 0 (.excluded 5) ∧
      (((3, 0, 5, 5), {7}) : FacetKey × Finset Nat) ∈
        facet_rev_range_scan 0 100 [(((3, 0, 5, 5), {7}) : FacetKey × Finset Nat)] 3 0 (.excluded 5) ∧
      ∀ k ∈ facet_range_scan 0 100 [(((3, 0, 5, 5), {7}) : FacetKey × Finset Nat)] 3 0 (.included 5),
        k ∉ facet_range_scan 0 100 [(((3, 0, 5, 5), {7}) : FacetKey × Finset Nat)] 3 0 (.excluded 5) →
        k.1 = (3, 0, 5, 0)) :=
  ⟨⟨by decide, by decide, by decide⟩,
    c10_excluded_left_bound 0 100 [(((3, 0, 5, 5), {7}) : FacetKey × Finset Nat)] 3 0 5
      ((3, 0, 5, 5), {7}) (by decide) rfl rfl rfl (by decide) (by decide) (by decide)⟩

/-! ## Claims C7 and C8 — criterion descriptor parsing and display -/

/-- `takeWhile` runs through a block of satisfying elements and stops at the
first failing one. -/
theorem takeWhile_append_of_false {p : Char → Bool} {f : List Char} {x : Char}
    {rest : List Char} (hf : ∀ c ∈ f, p c = true) (hx : p x = false) :
    (f ++ x :: rest).takeWhile p = f := by
  induction f with
  | nil => simp [List.takeWhile, hx]
  | cons a as ih =>
    have ha : p a = true := hf a (by simp)
    simp only [List.cons_append, List.takeWhile, ha, List.cons.injEq, true_and]
    exact ih (fun c hc => hf c (by simp [hc]))

/-- A list is a prefix of itself followed by anything. -/
theorem isPrefixOf_append_self (a b : List Char) : a.isPrefixOf (a ++ b) = true := by
  induction a with
  | nil => simp [List.isPrefixOf]
  | cons x xs ih => simp [List.isPrefixOf, ih]

/-- The regex matches a canonical `asc(field)` text at its head, capturing
`asc` and the field. -/
theorem regex_match_at_asc (f : List Char) (hne : f ≠ [])
    (hw : ∀ c ∈ f, is_word_char c = true) :
    regex_match_at ('a' :: 's' :: 'c' :: '(' :: (f ++ [')'])) = some ("asc".data, f) := by
  show regex_match_at (['a', 's', 'c', '('] ++ (f ++ [')'])) = some ("asc".data, f)
  unfold regex_match_at
  rw [show "asc(".data = ['a', 's', 'c', '('] from rfl, isPrefixOf_append_self]
  simp only [if_true]
  rw [show (['a', 's', 'c', '('] ++ (f ++ [')'])).drop 4 = f ++ [')'] from rfl]
  rw [takeWhile_append_of_false hw (by decide)]
  have hdrop : (f ++ [')']).drop f.length = [')'] := List.drop_left f [')']
  simp [hne, hdrop]

/-- The regex matches a canonical `desc(field)` text at its head, capturing
`desc` and the field. -/
theorem regex_match_at_desc (f : List Char) (hne : f ≠ [])
    (hw : ∀ c ∈ f, is_word_char c = true) :
    regex_match_at ('d' :: 'e' :: 's' :: 'c' :: '(' :: (f ++ [')'])) = some ("desc".data, f) := by
  show regex_match_at (['d', 'e', 's', 'c', '('] ++ (f ++ [')'])) = some ("desc".data, f)
  unfold regex_match_at
  rw [show ("asc(".data).isPrefixOf (['d', 'e', 's', 'c', '('] ++ (f ++ [')'])) = false from rfl]
  rw [show "desc(".data = ['d', 'e', 's', 'c', '('] from rfl, isPrefixOf_append_self]
  simp only [Bool.false_eq_true, if_false, if_true]
  rw [show (['d', 'e', 's', 'c', '('] ++ (f ++ [')'])).drop 5 = f ++ [')'] from rfl]
  rw [takeWhile_append_of_false hw (by decide)]
  have hdrop : (f ++ [')']).drop f.length = [')'] := List.drop_left f [')']
  simp [hne, hdrop]

/-- The leftmost regex match in a canonical `asc(field)` text is at position
zero. -/
theorem regex_captures_asc (f : List Char) (hne : f ≠ [])
    (hw : ∀ c ∈ f, is_word_char c = true) :
    regex_captures ('a' :: 's' :: 'c' :: '(' :: (f ++ [')'])) = some ("asc".data, f) := by
  unfold regex_captures
  rw [regex_match_at_asc f hne hw]

/-- The leftmost regex match in a canonical `desc(field)` text is at position
zero. -/
theorem regex_captures_desc (f : List Char) (hne : f ≠ [])
    (hw : ∀ c ∈ f, is_word_char c = true) :
    regex_captures ('d' :: 'e' :: 's' :: 'c' :: '(' :: (f ++ [')'])) = some ("desc".data, f) := by
  unfold regex_captures
  rw [regex_match_at_desc f hne hw]

/-- `from_str` on a canonical `asc(field)` text: parse succeeds when the field
is faceted and fails with the not-a-faceted-field error otherwise. -/
theorem from_str_canonical_asc (faceted : List (List Char)) (f : List Char) (hne : f ≠ [])
    (hw : ∀ c ∈ f, is_word_char c = true) :
    Criterion.from_str faceted ("asc(".data ++ f ++ ")".data) =
      if f ∈ faceted then .ok (.Asc f) else .error (.not_faceted_field f) := by
  show Criterion.from_str faceted ('a' :: 's' :: 'c' :: '(' :: (f ++ [')'])) = _
  unfold Criterion.from_str
  rw [if_neg (by simp), if_neg (by simp), if_neg (by simp), if_neg (by simp), if_neg (by simp)]
  rw [regex_captures_asc f hne hw]
  by_cases hf : f ∈ faceted <;> simp [hf]

/-- `from_str` on a canonical `desc(field)` text. -/
theorem from_str_canonical_desc (faceted : List (List Char)) (f : List Char) (hne : f ≠ [])
    (hw : ∀ c ∈ f, is_word_char c = true) :
    Criterion.from_str faceted ("desc(".data ++ f ++ ")".data) =
      if f ∈ faceted then .ok (.Desc f) else .error (.not_faceted_field f) := by
  show Criterion.from_str faceted ('d' :: 'e' :: 's' :: 'c' :: '(' :: (f ++ [')'])) = _
  unfold Criterion.from_str
  rw [if_neg (by simp), if_neg (by simp), if_neg (by simp), if_neg (by simp), if_neg (by simp)]
  rw [regex_captures_desc f hne hw]
  by_cases hf : f ∈ faceted <;> simp [hf]

/-- C7: `asc(price)` with faceted set `{price}` parses to `Asc("price")`;
every canonical `asc(f)`/`desc(f)` text whose field is not faceted fails with
the not-a-faceted-field error; and every text that is neither a keyword nor
matched by the regex fails with the unknown-criterion-name error. -/
theorem c7_from_str_errors :
    Criterion.from_str ["price".data] "asc(price)".data = .ok (.Asc "price".data) ∧
    (∀ f : List Char, ∀ faceted : List (List Char), f ≠ [] →
      (∀ c ∈ f, is_word_char c = true) → f ∉ faceted →
      Criterion.from_str faceted ("asc(".data ++ f ++ ")".data) =
        .error (.not_faceted_field f) ∧
      Criterion.from_str faceted ("desc(".data ++ f ++ ")".data) =
        .error (.not_faceted_field f)) ∧
    (∀ txt : List Char, ∀ faceted : List (List Char),
      txt ∉ ["words".data, "typo".data, "proximity".data, "attribute".data, "exactness".data] →
      regex_captures txt = none →
      Criterion.from_str faceted txt = .error (.unknown_criterion_name txt)) := by
  refine ⟨rfl, ?_, ?_⟩
  · intro f faceted hne hw hf
    rw [from_str_canonical_asc faceted f hne hw, from_str_canonical_desc faceted f hne hw]
    simp [hf]
  · intro txt faceted hkw hcap
    simp only [List.mem_cons, List.mem_singleton, not_or] at hkw
    obtain ⟨h1, h2, h3, h4, h5, _⟩ := hkw
    unfold Criterion.from_str
    rw [if_neg h1, if_neg h2, if_neg h3, if_neg h4, if_neg h5, hcap]

/-- Closed instance of C7: `asc(price)` against an empty faceted set fails
with the not-a-faceted-field error, and `hello` fails with the
unknown-criterion-name error. -/
theorem c7_from_str_errors_witness :
    (("price".data ≠ [] ∧ (∀ c ∈ "price".data, is_word_char c = true) ∧
        "price".data ∉ ([] : List (List Char))) ∧
      ("hello".data ∉
          ["words".data, "typo".data, "proximity".data, "attribute".data, "exactness".data] ∧
        regex_captures "hello".data = none)) ∧
    Criterion.from_str [] ("asc(".data ++ "price".data ++ ")".data) =
      .error (.not_faceted_field "price".data) ∧
    Criterion.from_str [] "hello".data = .error (.unknown_criterion_name "hello".data) :=
  ⟨⟨⟨by decide, by decide, by decide⟩, ⟨by decide, by decide⟩⟩,
    (c7_from_str_errors.2.1 "price".data [] (by decide) (by decide) (by decide)).1,
    c7_from_str_errors.2.2 "hello".data [] (by decide) (by decide)⟩

/-- C8 counterexample: the regex is not anchored, so `from_str` also accepts
texts with junk around the match; `xasc(price)` parses to `Asc("price")`, but
displaying that criterion gives `asc(price)`, not the original text. -/
theorem c8_counterexample :
    Criterion.from_str ["price".data] "xasc(price)".data = .ok (.Asc "price".data) ∧
    Criterion.display (.Asc "price".data) ≠ "xasc(price)".data :=
  ⟨rfl, by decide⟩

/-- C8 amended: on canonical descriptor texts — exactly the images of
`Display`: the five keywords and `asc(f)`/`desc(f)` with a nonempty
word-character field in the faceted set — parsing succeeds with the original
criterion, so formatting the parse result reproduces the text verbatim (no
case adjustment is involved). Other accepted texts (unanchored-regex matches
inside longer texts) re-display as only the matched part. -/
theorem c8_round_trip_amended (faceted : List (List Char)) (cr : Criterion)
    (hcanon : match cr with
      | .Asc f => f ≠ [] ∧ (∀ c ∈ f, is_word_char c = true) ∧ f ∈ faceted
      | .Desc f => f ≠ [] ∧ (∀ c ∈ f, is_word_char c = true) ∧ f ∈ faceted
      | _ => True) :
    Criterion.from_str faceted (Criterion.display cr) = .ok cr := by
  cases cr with
  | Words => rfl
  | Typo => rfl
  | Proximity => rfl
  | Attribute => rfl
  | Exactness => rfl
  | Asc f =>
    obtain ⟨hne, hw, hf⟩ := hcanon
    rw [show Criterion.display (.Asc f) = "asc(".data ++ f ++ ")".data from rfl]
    rw [from_str_canonical_asc faceted f hne hw, if_pos hf]
  | Desc f =>
    obtain ⟨hne, hw, hf⟩ := hcanon
    rw [show Criterion.display (.Desc f) = "desc(".data ++ f ++ ")".data from rfl]
    rw [from_str_canonical_desc faceted f hne hw, if_pos hf]

/-- Closed instance of the amended C8 round trip at `asc(price)`. -/
theorem c8_round_trip_amended_witness :
    ("price".data ≠ [] ∧ (∀ c ∈ "price".data, is_word_char c = true) ∧
      "price".data ∈ ["price".data]) ∧
    Criterion.from_str ["price".data] (Criterion.display (.Asc "price".data)) =
      .ok (.Asc "price".data) :=
  ⟨⟨by decide, by decide, by decide⟩,
    c8_round_trip_amended ["price".data] (.Asc "price".data) (by decide)⟩

/-! ## Claim C3 — the general contract of `best_proximity_for`

The pairwise cost is `pair_cost`; the facts below characterise, for each
proximity level, exactly which list entries achieve that cost, and the main
induction relates the code's level-by-level search to the smallest achievable
cost. -/

/-- Every pairwise cost is at most 8. -/
theorem pair_cost_le_eight (p q : Nat) : pair_cost p q ≤ 8 := by
  unfold pair_cost extract_position ONE_ATTRIBUTE
  split_ifs <;> omega

/-- Cost 0 is achieved exactly at the current position itself. -/
theorem pair_cost_eq_zero_iff (p q : Nat) : pair_cost p q = 0 ↔ q = p := by
  unfold pair_cost extract_position ONE_ATTRIBUTE
  split_ifs <;> first
    | omega
    | (simp only [false_iff, iff_false, true_iff, iff_true]
       omega)

/-- Cost 1 is achieved exactly at the next index within the same attribute. -/
theorem pair_cost_eq_one_iff (p q : Nat) :
    pair_cost p q = 1 ↔ (q = p + 1 ∧ p / 1000 = (p + 1) / 1000) := by
  unfold pair_cost extract_position ONE_ATTRIBUTE
  split_ifs <;> first
    | omega
    | (simp only [false_iff, iff_false, true_iff, iff_true]
       omega)

/-- A cost `c` between 2 and 7 is achieved exactly at `p + c` and `p - (c-1)`,
within the same attribute. -/
theorem pair_cost_eq_mid_iff (p q c : Nat) (h2 : 2 ≤ c) (h7 : c ≤ 7) :
    pair_cost p q = c ↔
      (p / 1000 = q / 1000 ∧ (q = p + c ∨ q + (c - 1) = p)) := by
  unfold pair_cost extract_position ONE_ATTRIBUTE
  split_ifs <;> omega

/-- For a position outside the first attribute, cost 8 is achieved exactly by
the positions up to `max(p-7, end of previous attribute)` and from
`min(p+8, start of next attribute)` on. -/
theorem pair_cost_eq_eight_iff (p q : Nat) (hp : 1000 ≤ p) :
    pair_cost p q = 8 ↔
      (q ≤ max (p - 7) ((p / 1000) * 1000 - 1) ∨
        min (p + 8) ((p / 1000 + 1) * 1000) ≤ q) := by
  unfold pair_cost extract_position ONE_ATTRIBUTE
  split_ifs <;> first
    | omega
    | (simp only [false_iff, iff_false, true_iff, iff_true]
       omega)

/-- On a strictly sorted list, filtering for one value leaves at most that
value. -/
theorem sorted_filter_eq_single (l : List Nat) (hs : List.Sorted (· < ·) l) (x : Nat) :
    l.filter (fun q => q = x) = if x ∈ l then [x] else [] := by
  induction l with
  | nil => simp
  | cons a t ih =>
    rw [List.sorted_cons] at hs
    obtain ⟨ha, hst⟩ := hs
    by_cases hax : a = x
    · subst hax
      have ht : t.filter (fun q => q = a) = [] := by
        rw [List.filter_eq_nil_iff]
        intro y hy
        have := ha y hy
        simp only [decide_eq_true_eq]
        omega
      simp [List.filter, ht]
    · have hmem : (x ∈ a :: t) ↔ (x ∈ t) := by
        simp only [List.mem_cons, or_iff_right_iff_imp]
        intro h
        exact absurd h.symm hax
      rw [List.filter_cons_of_neg (by simpa using hax), ih hst]
      by_cases hxt : x ∈ t
      · rw [if_pos hxt, if_pos (hmem.mpr hxt)]
      · rw [if_neg hxt, if_neg (fun h => hxt (hmem.mp h))]

/-- On a sorted list, a filter for a disjunction of an early and a late
predicate splits into the two filters in order. -/
theorem sorted_filter_or_split (l : List Nat) (hs : List.Sorted (· < ·) l)
    (P Q : Nat → Bool) (hsep : ∀ x y, P x = true → Q y = true → x < y) :
    l.filter (fun q => P q || Q q) = l.filter P ++ l.filter Q := by
  induction l with
  | nil => simp
  | cons a t ih =>
    rw [List.sorted_cons] at hs
    obtain ⟨ha, hst⟩ := hs
    cases hPa : P a with
    | true =>
      have hQa : Q a = false := by
        cases hQa : Q a with
        | true => exact absurd (hsep a a hPa hQa) (lt_irrefl a)
        | false => rfl
      simp [List.filter, hPa, hQa, ih hst]
    | false =>
      cases hQa : Q a with
      | true =>
        have hPt : t.filter P = [] := by
          rw [List.filter_eq_nil_iff]
          intro y hy hPy
          exact absurd (ha y hy) (not_lt.mpr (le_of_lt (hsep y a hPy hQa)))
        have hPt2 : t.filter (fun q => P q || Q q) = t.filter Q := by
          apply List.filter_congr
          intro y hy
          have : P y = false := by
            cases hPy : P y with
            | true => exact absurd (ha y hy) (not_lt.mpr (le_of_lt (hsep y a hPy hQa)))
            | false => rfl
          simp [this]
        simp [List.filter, hPa, hQa, hPt, hPt2]
      | false =>
        simp [List.filter, hPa, hQa, ih hst]

/-- On a sorted list, taking as many elements as are below `x` is filtering
for being below `x`. -/
theorem sorted_take_countP_lt (l : List Nat) (hs : List.Sorted (· < ·) l) (x : Nat) :
    l.take (l.countP (fun y => y < x)) = l.filter (fun y => y < x) := by
  induction l with
  | nil => simp
  | cons a t ih =>
    rw [List.sorted_cons] at hs
    obtain ⟨ha, hst⟩ := hs
    by_cases hax : a < x
    · have hc : (a :: t).countP (fun y => y < x) = t.countP (fun y => y < x) + 1 := by
        simp [List.countP_cons, hax]
      have hf : (a :: t).filter (fun y => y < x) = a :: t.filter (fun y => y < x) := by
        simp [List.filter_cons, hax]
      rw [hc, hf, List.take_succ_cons, ih hst]
    · have hct : t.countP (fun y => y < x) = 0 := by
        rw [List.countP_eq_zero]
        intro y hy
        have := ha y hy
        simp only [decide_eq_true_eq]
        omega
      have hft : t.filter (fun y => y < x) = [] := by
        rw [List.filter_eq_nil_iff]
        intro y hy
        have := ha y hy
        simp only [decide_eq_true_eq]
        omega
      simp [List.countP_cons, hax, hct, List.filter_cons, hft]

/-- On a sorted list containing `x`, taking one element more than those below
`x` is filtering for being at most `x`. -/
theorem sorted_take_countP_succ (l : List Nat) (hs : List.Sorted (· < ·) l) (x : Nat)
    (hx : x ∈ l) :
    l.take (l.countP (fun y => y < x) + 1) = l.filter (fun y => y ≤ x) := by
  induction l with
  | nil => simp at hx
  | cons a t ih =>
    rw [List.sorted_cons] at hs
    obtain ⟨ha, hst⟩ := hs
    by_cases hax : a < x
    · have hxt : x ∈ t := by
        rcases List.mem_cons.mp hx with h | h
        · omega
        · exact h
      have hc : (a :: t).countP (fun y => y < x) = t.countP (fun y => y < x) + 1 := by
        simp [List.countP_cons, hax]
      have hf : (a :: t).filter (fun y => y ≤ x) = a :: t.filter (fun y => y ≤ x) := by
        simp [List.filter_cons, Nat.le_of_lt hax]
      rw [hc, hf, List.take_succ_cons, ih hst hxt]
    · have hax2 : a = x := by
        rcases List.mem_cons.mp hx with h | h
        · omega
        · exact absurd (ha x h) (by omega)
      subst hax2
      have hct : t.countP (fun y => y < a) = 0 := by
        rw [List.countP_eq_zero]
        intro y hy
        have := ha y hy
        simp only [decide_eq_true_eq]
        omega
      have hft : t.filter (fun y => y ≤ a) = [] := by
        rw [List.filter_eq_nil_iff]
        intro y hy
        have := ha y hy
        simp only [decide_eq_true_eq]
        omega
      simp [List.countP_cons, hct, List.filter_cons, hft]

/-- On a sorted list, dropping the elements below `x` is filtering for being
at least `x`. -/
theorem sorted_drop_countP_lt (l : List Nat) (hs : List.Sorted (· < ·) l) (x : Nat) :
    l.drop (l.countP (fun y => y < x)) = l.filter (fun y => x ≤ y) := by
  induction l with
  | nil => simp
  | cons a t ih =>
    rw [List.sorted_cons] at hs
    obtain ⟨ha, hst⟩ := hs
    by_cases hax : a < x
    · have hc : (a :: t).countP (fun y => y < x) = t.countP (fun y => y < x) + 1 := by
        simp [List.countP_cons, hax]
      have hf : (a :: t).filter (fun y => x ≤ y) = t.filter (fun y => x ≤ y) := by
        simp only [List.filter_cons]
        rw [if_neg (by simp only [decide_eq_true_eq]; omega)]
      rw [hc, hf, List.drop_succ_cons]
      exact ih hst
    · have hct : t.countP (fun y => y < x) = 0 := by
        rw [List.countP_eq_zero]
        intro y hy
        have := ha y hy
        simp only [decide_eq_true_eq]
        omega
      have hft : (a :: t).filter (fun y => x ≤ y) = a :: t := by
        rw [List.filter_eq_self]
        intro y hy
        simp only [decide_eq_true_eq]
        rcases List.mem_cons.mp hy with h | h
        · omega
        · have := ha y h
          omega
      simp [List.countP_cons, hax, hct, hft]

/-- The list entries achieving cost 0. -/
theorem filter_cost_zero (p : Nat) (l : List Nat) (hs : List.Sorted (· < ·) l) :
    l.filter (fun q => pair_cost p q = 0) = if p ∈ l then [p] else [] := by
  rw [List.filter_congr (fun q _ => decide_eq_decide.mpr (pair_cost_eq_zero_iff p q))]
  exact sorted_filter_eq_single l hs p

/-- The list entries achieving cost 1. -/
theorem filter_cost_one (p : Nat) (l : List Nat) (hs : List.Sorted (· < ·) l) :
    l.filter (fun q => pair_cost p q = 1) =
      if p / 1000 = (p + 1) / 1000 ∧ (p + 1) ∈ l then [p + 1] else [] := by
  by_cases hattr : p / 1000 = (p + 1) / 1000
  · have heq : l.filter (fun q => pair_cost p q = 1) = l.filter (fun q => q = p + 1) := by
      apply List.filter_congr
      intro q _
      apply decide_eq_decide.mpr
      rw [pair_cost_eq_one_iff]
      simp [hattr]
    rw [heq, sorted_filter_eq_single l hs (p + 1)]
    by_cases hm : (p + 1) ∈ l
    · rw [if_pos hm, if_pos ⟨hattr, hm⟩]
    · rw [if_neg hm, if_neg (fun h => hm h.2)]
  · have heq : l.filter (fun q => pair_cost p q = 1) = [] := by
      rw [List.filter_eq_nil_iff]
      intro q _
      simp only [decide_eq_true_eq]
      rw [pair_cost_eq_one_iff]
      exact fun h => hattr h.2
    rw [heq, if_neg (fun h => hattr h.1)]

/-- The list entries achieving a cost between 2 and 7. -/
theorem filter_cost_mid (p c : Nat) (l : List Nat) (hs : List.Sorted (· < ·) l)
    (h2 : 2 ≤ c) (h7 : c ≤ 7) :
    l.filter (fun q => pair_cost p q = c) =
      (if c - 1 ≤ p ∧ p / 1000 = (p - (c - 1)) / 1000 ∧ (p - (c - 1)) ∈ l
        then [p - (c - 1)] else []) ++
      (if p / 1000 = (p + c) / 1000 ∧ (p + c) ∈ l then [p + c] else []) := by
  have hpoint : ∀ q, pair_cost p q = c ↔
      ((q = p - (c - 1) ∧ c - 1 ≤ p ∧ p / 1000 = (p - (c - 1)) / 1000) ∨
        (q = p + c ∧ p / 1000 = (p + c) / 1000)) := by
    intro q
    rw [pair_cost_eq_mid_iff p q c h2 h7]
    constructor
    · rintro ⟨hattr, hq | hq⟩
      · right
        constructor <;> omega
      · left
        refine ⟨by omega, by omega, ?_⟩
        have hqa : p - (c - 1) = q := by omega
        rw [hqa]
        omega
    · rintro (⟨hq, hle, hattr⟩ | ⟨hq, hattr⟩)
      · subst hq
        exact ⟨by omega, Or.inr (by omega)⟩
      · subst hq
        exact ⟨by omega, Or.inl rfl⟩
  by_cases hCA : c - 1 ≤ p ∧ p / 1000 = (p - (c - 1)) / 1000
  · by_cases hCB : p / 1000 = (p + c) / 1000
    · have heq : l.filter (fun q => pair_cost p q = c) =
          l.filter (fun q => decide (q = p - (c - 1)) || decide (q = p + c)) := by
        apply List.filter_congr
        intro q _
        rw [show (decide (q = p - (c - 1)) || decide (q = p + c)) =
          decide (q = p - (c - 1) ∨ q = p + c) from (Bool.decide_or _ _).symm]
        apply decide_eq_decide.mpr
        rw [hpoint q]
        constructor
        · rintro (⟨hq, _⟩ | ⟨hq, _⟩)
          · exact Or.inl hq
          · exact Or.inr hq
        · rintro (hq | hq)
          · exact Or.inl ⟨hq, hCA⟩
          · exact Or.inr ⟨hq, hCB⟩
      rw [heq, sorted_filter_or_split l hs _ _
        (fun x y hx hy => by
          simp only [decide_eq_true_eq] at hx hy
          omega)]
      rw [sorted_filter_eq_single l hs (p - (c - 1)), sorted_filter_eq_single l hs (p + c)]
      congr 1
      · by_cases hm : (p - (c - 1)) ∈ l
        · rw [if_pos hm, if_pos ⟨hCA.1, hCA.2, hm⟩]
        · rw [if_neg hm, if_neg (fun h => hm h.2.2)]
      · by_cases hm : (p + c) ∈ l
        · rw [if_pos hm, if_pos ⟨hCB, hm⟩]
        · rw [if_neg hm, if_neg (fun h => hm h.2)]
    · have heq : l.filter (fun q => pair_cost p q = c) =
          l.filter (fun q => q = p - (c - 1)) := by
        apply List.filter_congr
        intro q _
        apply decide_eq_decide.mpr
        rw [hpoint q]
        constructor
        · rintro (⟨hq, _⟩ | ⟨_, hattr⟩)
          · exact hq
          · exact absurd hattr hCB
        · exact fun hq => Or.inl ⟨hq, hCA⟩
      have hB : (if p / 1000 = (p + c) / 1000 ∧ (p + c) ∈ l then [p + c] else []) =
          ([] : List Nat) := if_neg (fun h => hCB h.1)
      rw [heq, sorted_filter_eq_single l hs (p - (c - 1)), hB, List.append_nil]
      by_cases hm : (p - (c - 1)) ∈ l
      · rw [if_pos hm, if_pos ⟨hCA.1, hCA.2, hm⟩]
      · rw [if_neg hm, if_neg (fun h => hm h.2.2)]
  · by_cases hCB : p / 1000 = (p + c) / 1000
    · have heq : l.filter (fun q => pair_cost p q = c) =
          l.filter (fun q => q = p + c) := by
        apply List.filter_congr
        intro q _
        apply decide_eq_decide.mpr
        rw [hpoint q]
        constructor
        · rintro (⟨_, hle, hattr⟩ | ⟨hq, _⟩)
          · exact absurd ⟨hle, hattr⟩ hCA
          · exact hq
        · exact fun hq => Or.inr ⟨hq, hCB⟩
      have hA : (if c - 1 ≤ p ∧ p / 1000 = (p - (c - 1)) / 1000 ∧ (p - (c - 1)) ∈ l
          then [p - (c - 1)] else []) = ([] : List Nat) :=
        if_neg (fun h => hCA ⟨h.1, h.2.1⟩)
      rw [heq, sorted_filter_eq_single l hs (p + c), hA, List.nil_append]
      by_cases hm : (p + c) ∈ l
      · rw [if_pos hm, if_pos ⟨hCB, hm⟩]
      · rw [if_neg hm, if_neg (fun h => hm h.2)]
    · have heq : l.filter (fun q => pair_cost p q = c) = [] := by
        rw [List.filter_eq_nil_iff]
        intro q _
        simp only [decide_eq_true_eq]
        rw [hpoint q]
        rintro (⟨_, hle, hattr⟩ | ⟨_, hattr⟩)
        · exact hCA ⟨hle, hattr⟩
        · exact hCB hattr
      have hA : (if c - 1 ≤ p ∧ p / 1000 = (p - (c - 1)) / 1000 ∧ (p - (c - 1)) ∈ l
          then [p - (c - 1)] else []) = ([] : List Nat) :=
        if_neg (fun h => hCA ⟨h.1, h.2.1⟩)
      have hB : (if p / 1000 = (p + c) / 1000 ∧ (p + c) ∈ l then [p + c] else []) =
          ([] : List Nat) := if_neg (fun h => hCB h.1)
      rw [heq, hA, hB, List.append_nil]

/-- The list entries achieving cost 8, for a position outside the first
attribute. -/
theorem filter_cost_eight (p : Nat) (l : List Nat) (hs : List.Sorted (· < ·) l)
    (hp : 1000 ≤ p) :
    l.filter (fun q => pair_cost p q = 8) =
      l.filter (fun q => q ≤ max (p - 7) ((p / 1000) * 1000 - 1)) ++
      l.filter (fun q => min (p + 8) ((p / 1000 + 1) * 1000) ≤ q) := by
  have heq : l.filter (fun q => pair_cost p q = 8) =
      l.filter (fun q => decide (q ≤ max (p - 7) ((p / 1000) * 1000 - 1)) ||
        decide (min (p + 8) ((p / 1000 + 1) * 1000) ≤ q)) := by
    apply List.filter_congr
    intro q _
    rw [show (decide (q ≤ max (p - 7) ((p / 1000) * 1000 - 1)) ||
        decide (min (p + 8) ((p / 1000 + 1) * 1000) ≤ q)) =
      decide (q ≤ max (p - 7) ((p / 1000) * 1000 - 1) ∨
        min (p + 8) ((p / 1000 + 1) * 1000) ≤ q) from (Bool.decide_or _ _).symm]
    exact decide_eq_decide.mpr (pair_cost_eq_eight_iff p q hp)
  rw [heq]
  exact sorted_filter_or_split l hs _ _
    (fun x y hx hy => by
      simp only [decide_eq_true_eq] at hx hy
      omega)

/-- The behind part of the `2..=7` arm, as a conditional singleton. -/
theorem behind_mid_eq (p c : Nat) (l : List Nat) :
    behind_mid p c l =
      if c - 1 ≤ p ∧ p / 1000 = (p - (c - 1)) / 1000 ∧ (p - (c - 1)) ∈ l
        then [p - (c - 1)] else [] := by
  unfold behind_mid bin_search extract_position ONE_ATTRIBUTE
  by_cases h1 : c - 1 ≤ p
  · rw [if_pos h1]
    by_cases hx : p / 1000 = (p - (c - 1)) / 1000 ∧ (p - (c - 1)) ∈ l
    · rw [if_pos ⟨hx.1, List.elem_iff.mpr hx.2⟩, if_pos ⟨h1, hx⟩]
    · rw [if_neg (fun h => hx ⟨h.1, List.elem_iff.mp h.2⟩), if_neg (fun h => hx h.2)]
  · rw [if_neg h1, if_neg (fun h => h1 h.1)]

/-- The front part of the `2..=7` arm, as a conditional singleton. -/
theorem front_mid_eq (p c : Nat) (l : List Nat) :
    front_mid p c l =
      if p / 1000 = (p + c) / 1000 ∧ (p + c) ∈ l then [p + c] else [] := by
  unfold front_mid bin_search extract_position ONE_ATTRIBUTE
  by_cases hx : p / 1000 = (p + c) / 1000 ∧ (p + c) ∈ l
  · rw [if_pos ⟨hx.1, List.elem_iff.mpr hx.2⟩, if_pos hx]
  · rw [if_neg (fun h => hx ⟨h.1, List.elem_iff.mp h.2⟩), if_neg hx]

/-- Outside the first attribute, the behind part of the `8` arm collects
exactly the positions up to `max(p-7, end of previous attribute)`. -/
theorem behind_eight_eq (p : Nat) (l : List Nat) (hs : List.Sorted (· < ·) l)
    (hp : 1000 ≤ p) :
    behind_eight p l = l.filter (fun q => q ≤ max (p - 7) (p / 1000 * 1000 - 1)) := by
  unfold behind_eight bin_search construct_position extract_position ONE_ATTRIBUTE
  rw [if_pos (by omega : 1 ≤ p / 1000 * 1000 + 0)]
  simp only [Nat.add_zero]
  have hnotmem : l.contains (max (p - 7) (p / 1000 * 1000 - 1)) = false →
      ∀ x ∈ l, x ≠ max (p - 7) (p / 1000 * 1000 - 1) := by
    intro hb x hx heq
    subst heq
    have hc : l.contains ((p - 7) ⊔ (p / 1000 * 1000 - 1)) = true := List.elem_iff.mpr hx
    rw [hc] at hb
    simp at hb
  cases hb : l.contains (max (p - 7) (p / 1000 * 1000 - 1)) with
  | true =>
    exact sorted_take_countP_succ l hs _ (List.elem_iff.mp hb)
  | false =>
    change (if 1 ≤ l.countP (fun y => y < max (p - 7) (p / 1000 * 1000 - 1))
      then l.take (l.countP (fun y => y < max (p - 7) (p / 1000 * 1000 - 1)))
      else []) = _
    by_cases hcp : 1 ≤ l.countP (fun y => y < max (p - 7) (p / 1000 * 1000 - 1))
    · rw [if_pos hcp, sorted_take_countP_lt l hs _]
      apply List.filter_congr
      intro x hx
      apply decide_eq_decide.mpr
      have := hnotmem hb x hx
      omega
    · rw [if_neg hcp]
      have hcz : ∀ a ∈ l, ¬ (decide (a < max (p - 7) (p / 1000 * 1000 - 1)) = true) :=
        List.countP_eq_zero.mp (by omega)
      symm
      rw [List.filter_eq_nil_iff]
      intro x hx
      have h1 := hcz x hx
      have h2 := hnotmem hb x hx
      simp only [decide_eq_true_eq] at h1 ⊢
      omega

/-- The front part of the `8` arm collects exactly the positions from
`min(p+8, start of next attribute)` on. -/
theorem front_eight_eq (p : Nat) (l : List Nat) (hs : List.Sorted (· < ·) l) :
    front_eight p l = l.filter (fun q => min (p + 8) ((p / 1000 + 1) * 1000) ≤ q) := by
  unfold front_eight bin_search construct_position extract_position ONE_ATTRIBUTE
  simp only [Nat.add_zero]
  exact sorted_drop_countP_lt l hs _

/-- If no entry achieves cost `c` exactly, the helper's contract at `c`
follows from its contract at `c + 1`. -/
theorem bpf_ok_step (p c : Nat) (l : List Nat) (r : Option (Nat × List Nat))
    (hnone : l.filter (fun q => pair_cost p q = c) = [])
    (h : bpf_ok p (c + 1) l r) : bpf_ok p c l r := by
  have hne : ∀ q ∈ l, pair_cost p q ≠ c := by
    intro q hq
    have := List.filter_eq_nil_iff.mp hnone q hq
    simpa using this
  match r with
  | none =>
    simp only [bpf_ok] at h ⊢
    rw [List.filter_congr (fun q hq => decide_eq_decide.mpr
      (by have := hne q hq; omega : c ≤ pair_cost p q ↔ c + 1 ≤ pair_cost p q))]
    exact h
  | some (c', ps) =>
    obtain ⟨h1, h2, h3, h4⟩ := h
    exact ⟨by omega, h2, h3, fun q hq hcq => h4 q hq (by have := hne q hq; omega)⟩

/-- The fueled search satisfies the helper contract at every level, for sorted
position lists and a current position outside the first attribute. -/
theorem best_proximity_for_go_spec : ∀ (fuel p c : Nat) (l : List Nat),
    List.Sorted (· < ·) l → 1000 ≤ p → 9 - c < fuel →
    bpf_ok p c l (best_proximity_for_go fuel p c l) := by
  intro fuel
  induction fuel with
  | zero => intro p c l _ _ hf; omega
  | succ fuel ih =>
    intro p c l hs hp hf
    by_cases hc9 : 9 ≤ c
    · have hnone : best_proximity_for_go (fuel + 1) p c l = none := by
        simp only [best_proximity_for_go]
        rw [if_neg (by omega), if_neg (by omega), if_neg (by omega), if_neg (by omega)]
      rw [hnone]
      simp only [bpf_ok]
      rw [List.filter_eq_nil_iff]
      intro q hq
      simp only [decide_eq_true_eq]
      have := pair_cost_le_eight p q
      omega
    · by_cases hc0 : c = 0
      · subst hc0
        rw [show best_proximity_for_go (fuel + 1) p 0 l =
          (if l.contains p = true then some (0, [p])
            else best_proximity_for_go fuel p 1 l) from rfl]
        by_cases hcont : l.contains p = true
        · rw [if_pos hcont]
          refine ⟨Nat.le_refl 0, ?_, by simp, fun q _ _ => Nat.zero_le _⟩
          rw [filter_cost_zero p l hs, if_pos (List.elem_iff.mp hcont)]
        · rw [if_neg hcont]
          refine bpf_ok_step p 0 l _ ?_ (ih p 1 l hs hp (by omega))
          rw [filter_cost_zero p l hs,
            if_neg (fun h => hcont (List.elem_iff.mpr h))]
      · by_cases hc1 : c = 1
        · subst hc1
          rw [show best_proximity_for_go (fuel + 1) p 1 l =
            (if p / 1000 = (p + 1) / 1000 then
              (if l.contains (p + 1) = true then some (1, [p + 1])
                else best_proximity_for_go fuel p 2 l)
              else best_proximity_for_go fuel p 2 l) from rfl]
          by_cases hattr : p / 1000 = (p + 1) / 1000
          · rw [if_pos hattr]
            by_cases hcont : l.contains (p + 1) = true
            · rw [if_pos hcont]
              refine ⟨Nat.le_refl 1, ?_, by simp, fun q _ h => h⟩
              rw [filter_cost_one p l hs, if_pos ⟨hattr, List.elem_iff.mp hcont⟩]
            · rw [if_neg hcont]
              refine bpf_ok_step p 1 l _ ?_ (ih p 2 l hs hp (by omega))
              rw [filter_cost_one p l hs,
                if_neg (fun h => hcont (List.elem_iff.mpr h.2))]
          · rw [if_neg hattr]
            refine bpf_ok_step p 1 l _ ?_ (ih p 2 l hs hp (by omega))
            rw [filter_cost_one p l hs, if_neg (fun h => hattr h.1)]
        · by_cases hc7 : c ≤ 7
          · have h2 : 2 ≤ c := by omega
            have hout_eq : behind_mid p c l ++ front_mid p c l =
                l.filter (fun q => pair_cost p q = c) := by
              rw [behind_mid_eq, front_mid_eq, ← filter_cost_mid p c l hs h2 hc7]
            simp only [best_proximity_for_go]
            rw [if_neg hc0, if_neg hc1, if_pos hc7]
            simp only [hout_eq]
            by_cases hout : l.filter (fun q => pair_cost p q = c) = []
            · rw [if_pos hout]
              exact bpf_ok_step p c l _ hout (ih p (c + 1) l hs hp (by omega))
            · rw [if_neg hout]
              exact ⟨Nat.le_refl c, rfl, hout, fun q _ h => h⟩
          · have hc8 : c = 8 := by omega
            subst hc8
            have hout_eq : behind_eight p l ++ front_eight p l =
                l.filter (fun q => pair_cost p q = 8) := by
              rw [behind_eight_eq p l hs hp, front_eight_eq p l hs,
                ← filter_cost_eight p l hs hp]
            rw [show best_proximity_for_go (fuel + 1) p 8 l =
              (if behind_eight p l ++ front_eight p l = [] then none
                else some (8, behind_eight p l ++ front_eight p l)) from rfl]
            simp only [hout_eq]
            by_cases hout : l.filter (fun q => pair_cost p q = 8) = []
            · rw [if_pos hout]
              simp only [bpf_ok]
              rw [List.filter_eq_nil_iff] at hout ⊢
              intro q hq
              have h1 := hout q hq
              have hle := pair_cost_le_eight p q
              simp only [decide_eq_true_eq] at h1 ⊢
              omega
            · rw [if_neg hout]
              exact ⟨Nat.le_refl 8, rfl, hout, fun q _ h => h⟩

/-- C3 counterexample: at `best_proximity_for(9, 8, [1])` the list entry `1`
achieves pairwise cost 8 with the current position 9 (it is seven or more
slots behind), so the claim requires `Some(8, [1])`; the code returns `None`
because position 9 lies in the first attribute, where the whole behind-scan of
the `8` arm is skipped (`checked_sub(1)` on the attribute start fails). -/
theorem c3_counterexample :
    best_proximity_for 9 8 [1] = none ∧ pair_cost 9 1 = 8 := by
  decide

/-- C3 amended: for every sorted position list and every current position
*outside the first attribute*, `best_proximity_for` returns `None` exactly
when no list entry achieves pairwise cost at least `c`, and otherwise
`Some(c', ps)` where `c' ≥ c` is the smallest achievable cost and `ps` is
exactly the sublist of entries achieving `c'` (so in particular, at `c = 8`
it returns every entry from a different attribute and every same-attribute
entry seven or more slots behind or eight or more ahead). The pairwise cost
is `pair_cost`: 8 across attributes, else 0 at the same position, `min(q-p,8)`
forward, `min(p-q+1,8)` backward. Inside the first attribute the code omits
the behind part of the cost-8 bucket, as the counterexample shows. -/
theorem c3_best_proximity_for_amended (p c : Nat) (l : List Nat)
    (hs : List.Sorted (· < ·) l) (hattr : 1000 ≤ p) :
    (best_proximity_for p c l = none ↔
      l.filter (fun q => c ≤ pair_cost p q) = []) ∧
    (∀ c' ps, best_proximity_for p c l = some (c', ps) →
      c ≤ c' ∧ ps = l.filter (fun q => pair_cost p q = c') ∧ ps ≠ [] ∧
      ∀ q ∈ l, c ≤ pair_cost p q → c' ≤ pair_cost p q) := by
  have h := best_proximity_for_go_spec 10 p c l hs hattr (by omega)
  rcases hr : best_proximity_for p c l with _ | ⟨c', ps⟩ <;>
    unfold best_proximity_for at hr <;> rw [hr] at h
  · simp only [bpf_ok] at h
    refine ⟨⟨fun _ => h, fun _ => rfl⟩, ?_⟩
    intro c' ps heq
    cases heq
  · simp only [bpf_ok] at h
    constructor
    · constructor
      · intro habs
        cases habs
      · intro hfe
        exfalso
        obtain ⟨h1, h2, h3, h4⟩ := h
        apply h3
        rw [h2, List.filter_eq_nil_iff]
        intro q hq
        have h5 := List.filter_eq_nil_iff.mp hfe q hq
        simp only [decide_eq_true_eq] at h5 ⊢
        omega
    · intro c'' ps'' heq
      rw [Option.some.injEq] at heq
      obtain ⟨rfl, rfl⟩ := Prod.mk.injEq .. |>.mp heq
      exact h

/-! ## Claim C4 — the reducing facet level iterator

The drain of `FacetIter::next` is analysed as a stack machine; the fuel of
`facet_iter_drain` is shown irrelevant above the `state_fuel` measure, the
machine steps become unconditional equations, and a stack invariant yields
disjointness and the union of the emitted bitmaps. -/

/-- Frame fuel is positive. -/
theorem frame_fuel_pos (n k : Nat) : 1 ≤ frame_fuel n k := by
  cases k with
  | zero => simp [frame_fuel]
  | succ k => simp [frame_fuel]

/-- `takeWhile` never lengthens a list. -/
theorem takeWhile_length_le {α : Type} (p : α → Bool) (l : List α) :
    (l.takeWhile p).length ≤ l.length := by
  induction l with
  | nil => simp
  | cons a t ih =>
    cases h : p a with
    | true =>
      simp only [List.takeWhile, h, List.length_cons]
      omega
    | false => simp [List.takeWhile, h]

/-- Members of a `takeWhile` are members of the list. -/
theorem mem_of_mem_takeWhile {α : Type} (p : α → Bool) (l : List α) (x : α)
    (h : x ∈ l.takeWhile p) : x ∈ l := by
  induction l with
  | nil => simp [List.takeWhile] at h
  | cons a t ih =>
    cases hp : p a with
    | true =>
      rw [List.takeWhile, hp] at h
      rcases List.mem_cons.mp h with h1 | h1
      · simp [h1]
      · exact List.mem_cons.mpr (Or.inr (ih h1))
    | false =>
      rw [List.takeWhile, hp] at h
      cases h

/-- A pushed sub-iterator holds at most as many entries as the table. -/
theorem sub_entries_length_le (T : List FacetEntry) (k l r : Nat) :
    (sub_entries T k l r).length ≤ T.length := by
  calc (sub_entries T k l r).length
      ≤ ((level_entries T k).filter (fun e => l ≤ e.left)).length :=
        takeWhile_length_le _ _
    _ ≤ (level_entries T k).length := List.length_filter_le _ _
    _ ≤ T.length := List.length_filter_le _ _

/-- A pushed sub-iterator only holds entries of its level. -/
theorem sub_entries_mem (T : List FacetEntry) (k l r : Nat) (e : FacetEntry)
    (h : e ∈ sub_entries T k l r) : e ∈ level_entries T k :=
  (List.mem_filter.mp (mem_of_mem_takeWhile _ _ _ h)).1

/-- The key decrease for the push step: expanding one entry of level `k+1`
into at most `N` entries of level `k` shrinks the fuel measure. -/
theorem push_fuel_lt (N k les lsub frest : Nat) (hsub : lsub ≤ N) :
    frame_fuel N k * lsub + 1 + (frame_fuel N (k + 1) * les + 1 + frest) <
      frame_fuel N (k + 1) * (les + 1) + 1 + frest := by
  have hw : frame_fuel N (k + 1) = N * frame_fuel N k + 2 := rfl
  have h1 : frame_fuel N k * lsub ≤ frame_fuel N k * N :=
    Nat.mul_le_mul_left _ hsub
  have h2 : frame_fuel N k * N = N * frame_fuel N k := Nat.mul_comm _ _
  have h3 : frame_fuel N (k + 1) * (les + 1) =
      frame_fuel N (k + 1) * les + frame_fuel N (k + 1) := by ring
  omega

/-- Above the `state_fuel` measure, the fueled drain does not depend on the
fuel. -/
theorem facet_iter_drain_go_fuel (T : List FacetEntry) : ∀ (f1 f2 : Nat) (s : List FacetFrame),
    state_fuel T.length s < f1 → state_fuel T.length s < f2 →
    facet_iter_drain_go T f1 s = facet_iter_drain_go T f2 s := by
  intro f1
  induction f1 with
  | zero => intro f2 s h1 _; omega
  | succ f1 ih =>
    intro f2 s h1 h2
    match f2, s with
    | 0, s => omega
    | f2 + 1, [] => rfl
    | f2 + 1, (rem, lvl, pending) :: rest =>
      simp only [state_fuel] at h1 h2
      simp only [facet_iter_drain_go]
      by_cases hrem : rem = ∅
      · simp only [if_pos hrem]
        apply ih
        · have := frame_fuel_pos T.length lvl
          omega
        · have := frame_fuel_pos T.length lvl
          omega
      · simp only [if_neg hrem]
        cases pending with
        | nil =>
          apply ih
          · omega
          · omega
        | cons e es =>
          by_cases hB : e.docs ∩ rem = ∅
          · simp only [if_pos hB]
            apply ih
            · simp only [state_fuel, List.length_cons] at h1 ⊢
              have := frame_fuel_pos T.length lvl
              have h4 : frame_fuel T.length lvl * (es.length + 1) =
                  frame_fuel T.length lvl * es.length + frame_fuel T.length lvl := by ring
              omega
            · simp only [state_fuel, List.length_cons] at h2 ⊢
              have := frame_fuel_pos T.length lvl
              have h4 : frame_fuel T.length lvl * (es.length + 1) =
                  frame_fuel T.length lvl * es.length + frame_fuel T.length lvl := by ring
              omega
          · simp only [if_neg hB]
            cases lvl with
            | zero =>
              have hstep : ∀ ff, state_fuel T.length ((rem, 0, e :: es) :: rest) < ff + 1 →
                  state_fuel T.length ((rem \ (e.docs ∩ rem), 0, es) :: rest) < ff := by
                intro ff hff
                simp only [state_fuel, List.length_cons, frame_fuel] at hff ⊢
                omega
              rw [ih f2 _ (hstep f1 (by simp only [state_fuel]; exact h1))
                (hstep f2 (by simp only [state_fuel]; exact h2))]
            | succ k =>
              apply ih
              · simp only [state_fuel, List.length_cons] at h1 ⊢
                have h4 := push_fuel_lt T.length k es.length
                  (sub_entries T k e.left e.right).length (state_fuel T.length rest)
                  (sub_entries_length_le T k e.left e.right)
                omega
              · simp only [state_fuel, List.length_cons] at h2 ⊢
                have h4 := push_fuel_lt T.length k es.length
                  (sub_entries T k e.left e.right).length (state_fuel T.length rest)
                  (sub_entries_length_le T k e.left e.right)
                omega

/-- The drain computed with canonical fuel equals any sufficiently fueled
run. -/
theorem facet_iter_drain_eq_go (T : List FacetEntry) (s : List FacetFrame) (fuel : Nat)
    (h : state_fuel T.length s < fuel) :
    facet_iter_drain T s = facet_iter_drain_go T fuel s :=
  facet_iter_drain_go_fuel T _ fuel s (by omega) h

/-- Machine step: a frame with an empty remaining set or an exhausted
iterator is popped. -/
theorem drain_pop (T : List FacetEntry) (rem : Finset Nat) (lvl : Nat)
    (pending : List FacetEntry) (rest : List FacetFrame)
    (h : rem = ∅ ∨ pending = []) :
    facet_iter_drain T ((rem, lvl, pending) :: rest) = facet_iter_drain T rest := by
  have hlt : state_fuel T.length rest <
      state_fuel T.length ((rem, lvl, pending) :: rest) := by
    simp only [state_fuel]
    have := frame_fuel_pos T.length lvl
    omega
  rw [show facet_iter_drain T ((rem, lvl, pending) :: rest) = facet_iter_drain_go T
      (state_fuel T.length ((rem, lvl, pending) :: rest)) rest from ?_]
  · exact (facet_iter_drain_eq_go T rest _ hlt).symm
  · show facet_iter_drain_go T (state_fuel T.length ((rem, lvl, pending) :: rest) + 1)
      ((rem, lvl, pending) :: rest) = _
    rcases h with h | h
    · simp only [facet_iter_drain_go, if_pos h]
    · subst h
      by_cases hrem : rem = ∅
      · simp only [facet_iter_drain_go, if_pos hrem]
      · simp only [facet_iter_drain_go, if_neg hrem]

/-- Machine step: an entry contributing no new document is skipped. -/
theorem drain_skip (T : List FacetEntry) (rem : Finset Nat) (lvl : Nat)
    (e : FacetEntry) (es : List FacetEntry) (rest : List FacetFrame)
    (hrem : rem ≠ ∅) (hB : e.docs ∩ rem = ∅) :
    facet_iter_drain T ((rem, lvl, e :: es) :: rest) =
      facet_iter_drain T ((rem, lvl, es) :: rest) := by
  have hlt : state_fuel T.length ((rem, lvl, es) :: rest) <
      state_fuel T.length ((rem, lvl, e :: es) :: rest) := by
    simp only [state_fuel, List.length_cons]
    have := frame_fuel_pos T.length lvl
    have h4 : frame_fuel T.length lvl * (es.length + 1) =
        frame_fuel T.length lvl * es.length + frame_fuel T.length lvl := by ring
    omega
  rw [show facet_iter_drain T ((rem, lvl, e :: es) :: rest) = facet_iter_drain_go T
      (state_fuel T.length ((rem, lvl, e :: es) :: rest)) ((rem, lvl, es) :: rest) from ?_]
  · exact (facet_iter_drain_eq_go T _ _ hlt).symm
  · show facet_iter_drain_go T (state_fuel T.length ((rem, lvl, e :: es) :: rest) + 1)
      ((rem, lvl, e :: es) :: rest) = _
    simp only [facet_iter_drain_go, if_neg hrem, if_pos hB]

/-- Machine step: a contributing level-0 entry is emitted, reduced from the
remaining set. -/
theorem drain_emit (T : List FacetEntry) (rem : Finset Nat)
    (e : FacetEntry) (es : List FacetEntry) (rest : List FacetFrame)
    (hrem : rem ≠ ∅) (hB : e.docs ∩ rem ≠ ∅) :
    facet_iter_drain T ((rem, 0, e :: es) :: rest) =
      (e.left, e.docs ∩ rem) ::
        facet_iter_drain T ((rem \ (e.docs ∩ rem), 0, es) :: rest) := by
  have hlt : state_fuel T.length ((rem \ (e.docs ∩ rem), 0, es) :: rest) <
      state_fuel T.length ((rem, 0, e :: es) :: rest) := by
    simp only [state_fuel, List.length_cons, frame_fuel]
    omega
  rw [show facet_iter_drain T ((rem, 0, e :: es) :: rest) = (e.left, e.docs ∩ rem) ::
      facet_iter_drain_go T (state_fuel T.length ((rem, 0, e :: es) :: rest))
        ((rem \ (e.docs ∩ rem), 0, es) :: rest) from ?_]
  · rw [← facet_iter_drain_eq_go T _ _ hlt]
  · show facet_iter_drain_go T (state_fuel T.length ((rem, 0, e :: es) :: rest) + 1)
      ((rem, 0, e :: es) :: rest) = _
    simp only [facet_iter_drain_go, if_neg hrem, if_neg hB]

/-- Machine step: a contributing entry above level 0 pushes the scan of its
range one level below, reduced from the remaining set. -/
theorem drain_push (T : List FacetEntry) (rem : Finset Nat) (k : Nat)
    (e : FacetEntry) (es : List FacetEntry) (rest : List FacetFrame)
    (hrem : rem ≠ ∅) (hB : e.docs ∩ rem ≠ ∅) :
    facet_iter_drain T ((rem, k + 1, e :: es) :: rest) =
      facet_iter_drain T ((e.docs ∩ rem, k, sub_entries T k e.left e.right) ::
        (rem \ (e.docs ∩ rem), k + 1, es) :: rest) := by
  have hlt : state_fuel T.length ((e.docs ∩ rem, k, sub_entries T k e.left e.right) ::
      (rem \ (e.docs ∩ rem), k + 1, es) :: rest) <
      state_fuel T.length ((rem, k + 1, e :: es) :: rest) := by
    simp only [state_fuel, List.length_cons]
    have h4 := push_fuel_lt T.length k es.length
      (sub_entries T k e.left e.right).length (state_fuel T.length rest)
      (sub_entries_length_le T k e.left e.right)
    omega
  rw [show facet_iter_drain T ((rem, k + 1, e :: es) :: rest) = facet_iter_drain_go T
      (state_fuel T.length ((rem, k + 1, e :: es) :: rest))
      ((e.docs ∩ rem, k, sub_entries T k e.left e.right) ::
        (rem \ (e.docs ∩ rem), k + 1, es) :: rest) from ?_]
  · exact (facet_iter_drain_eq_go T _ _ hlt).symm
  · show facet_iter_drain_go T (state_fuel T.length ((rem, k + 1, e :: es) :: rest) + 1)
      ((rem, k + 1, e :: es) :: rest) = _
    simp only [facet_iter_drain_go, if_neg hrem, if_neg hB]

/-- A set meeting every frame's remaining set in nothing meets the stack's
remaining union in nothing. -/
theorem inter_stack_rems_empty (x : Finset Nat) : ∀ (s : List FacetFrame),
    (∀ g ∈ s, x ∩ g.1 = ∅) → x ∩ stack_rems s = ∅ := by
  intro s
  induction s with
  | nil => intro _; simp [stack_rems]
  | cons g rest ih =>
    intro h
    simp only [stack_rems]
    rw [Finset.inter_union_distrib_left, h g (by simp),
      ih (fun g2 hg2 => h g2 (by simp [hg2])), Finset.empty_union]

/-- The machine invariant: on a stack whose pending entries come from their
frame's level of the table and whose remaining sets are pairwise disjoint,
the drain's emitted bitmaps union to the per-frame remainders restricted to
their pending entries, are pairwise disjoint, and stay inside the stacked
remainders. The bitmap of every entry above level 0 must be the union of the
bitmaps its sub-scan delivers (the operational facet-tree invariant). -/
theorem drain_invariant (T : List FacetEntry)
    (hkey : ∀ k, ∀ e ∈ level_entries T (k + 1),
      e.docs = union_docs (sub_entries T k e.left e.right)) :
    ∀ (n : Nat) (s : List FacetFrame), state_fuel T.length s ≤ n →
    (∀ f ∈ s, ∀ e ∈ f.2.2, e ∈ level_entries T f.2.1) →
    List.Pairwise (fun f g : FacetFrame => f.1 ∩ g.1 = ∅) s →
    union_list ((facet_iter_drain T s).map (·.2)) = stack_goal s ∧
    List.Pairwise (fun a b : Finset Nat => a ∩ b = ∅)
      ((facet_iter_drain T s).map (·.2)) ∧
    ∀ b ∈ (facet_iter_drain T s).map (·.2), b ⊆ stack_rems s := by
  intro n
  induction n with
  | zero =>
    intro s hfuel hwf hdisj
    match s with
    | [] => exact ⟨rfl, List.Pairwise.nil, by simp [facet_iter_drain, facet_iter_drain_go]⟩
    | (rem, lvl, pending) :: rest =>
      exfalso
      simp only [state_fuel] at hfuel
      omega
  | succ n ih =>
    intro s hfuel hwf hdisj
    match s with
    | [] => exact ⟨rfl, List.Pairwise.nil, by simp [facet_iter_drain, facet_iter_drain_go]⟩
    | (rem, lvl, pending) :: rest =>
      simp only [state_fuel] at hfuel
      obtain ⟨hhead, htail⟩ := List.pairwise_cons.mp hdisj
      have hwrest : ∀ f ∈ rest, ∀ e ∈ f.2.2, e ∈ level_entries T f.2.1 :=
        fun f hf => hwf f (by simp [hf])
      by_cases hrem : rem = ∅
      · rw [drain_pop T rem lvl pending rest (Or.inl hrem)]
        obtain ⟨hu, hpw, hsub⟩ := ih rest
          (by have := frame_fuel_pos T.length lvl; omega) hwrest htail
        refine ⟨?_, hpw, ?_⟩
        · rw [hu]
          simp [stack_goal, hrem]
        · intro b hb
          intro x hx
          simp only [stack_rems, Finset.mem_union]
          exact Or.inr (hsub b hb hx)
      · cases pending with
        | nil =>
          rw [drain_pop T rem lvl [] rest (Or.inr rfl)]
          obtain ⟨hu, hpw, hsub⟩ := ih rest
            (by have := frame_fuel_pos T.length lvl; omega) hwrest htail
          refine ⟨?_, hpw, ?_⟩
          · rw [hu]
            simp [stack_goal, union_docs]
          · intro b hb
            intro x hx
            simp only [stack_rems, Finset.mem_union]
            exact Or.inr (hsub b hb hx)
        | cons e es =>
          have hBmem : ∀ x, x ∈ e.docs ∩ rem ↔ (x ∈ e.docs ∧ x ∈ rem) := by
            intro x
            simp [Finset.mem_inter]
          by_cases hB : e.docs ∩ rem = ∅
          · rw [drain_skip T rem lvl e es rest hrem hB]
            have hfuel2 : state_fuel T.length ((rem, lvl, es) :: rest) ≤ n := by
              simp only [state_fuel, List.length_cons] at hfuel ⊢
              have := frame_fuel_pos T.length lvl
              have h4 : frame_fuel T.length lvl * (es.length + 1) =
                  frame_fuel T.length lvl * es.length + frame_fuel T.length lvl := by ring
              omega
            have hwf2 : ∀ f ∈ (rem, lvl, es) :: rest, ∀ e2 ∈ f.2.2,
                e2 ∈ level_entries T f.2.1 := by
              intro f hf e2 he2
              rcases List.mem_cons.mp hf with h | h
              · subst h
                exact hwf (rem, lvl, e :: es) (by simp) e2 (List.mem_cons_of_mem e he2)
              · exact hwrest f h e2 he2
            obtain ⟨hu, hpw, hsub⟩ := ih ((rem, lvl, es) :: rest) hfuel2 hwf2
              (List.pairwise_cons.mpr ⟨hhead, htail⟩)
            refine ⟨?_, hpw, ?_⟩
            · rw [hu]
              simp only [stack_goal]
              have hre : rem ∩ union_docs (e :: es) = rem ∩ union_docs es := by
                rw [show union_docs (e :: es) = e.docs ∪ union_docs es from rfl,
                  Finset.inter_union_distrib_left]
                have : rem ∩ e.docs = ∅ := by
                  rw [Finset.inter_comm]
                  exact hB
                rw [this, Finset.empty_union]
              rw [hre]
            · intro b hb
              intro x hx
              have := hsub b hb hx
              simpa [stack_rems] using this
          · cases lvl with
            | zero =>
              rw [drain_emit T rem e es rest hrem hB]
              have hfuel2 : state_fuel T.length
                  ((rem \ (e.docs ∩ rem), 0, es) :: rest) ≤ n := by
                simp only [state_fuel, List.length_cons, frame_fuel] at hfuel ⊢
                omega
              have hwf2 : ∀ f ∈ (rem \ (e.docs ∩ rem), 0, es) :: rest, ∀ e2 ∈ f.2.2,
                  e2 ∈ level_entries T f.2.1 := by
                intro f hf e2 he2
                rcases List.mem_cons.mp hf with h | h
                · subst h
                  exact hwf (rem, 0, e :: es) (by simp) e2 (List.mem_cons_of_mem e he2)
                · exact hwrest f h e2 he2
              have hdisj2 : List.Pairwise (fun f g : FacetFrame => f.1 ∩ g.1 = ∅)
                  ((rem \ (e.docs ∩ rem), 0, es) :: rest) := by
                refine List.pairwise_cons.mpr ⟨?_, htail⟩
                intro g hg
                have hg2 := hhead g hg
                rw [Finset.eq_empty_iff_forall_not_mem] at hg2 ⊢
                intro x hx
                simp only [Finset.mem_inter, Finset.mem_sdiff] at hx
                exact hg2 x (Finset.mem_inter.mpr ⟨hx.1.1, hx.2⟩)
              obtain ⟨hu, hpw, hsub⟩ := ih _ hfuel2 hwf2 hdisj2
              simp only [List.map_cons]
              refine ⟨?_, ?_, ?_⟩
              · rw [show union_list ((e.docs ∩ rem) ::
                  (facet_iter_drain T ((rem \ (e.docs ∩ rem), 0, es) :: rest)).map (·.2)) =
                  (e.docs ∩ rem) ∪ union_list
                    ((facet_iter_drain T ((rem \ (e.docs ∩ rem), 0, es) :: rest)).map (·.2))
                  from rfl, hu]
                simp only [stack_goal]
                ext x
                simp only [Finset.mem_union, Finset.mem_inter, Finset.mem_sdiff,
                  show union_docs (e :: es) = e.docs ∪ union_docs es from rfl]
                constructor
                · rintro (⟨hxe, hxr⟩ | (⟨⟨hxr, _⟩, hxes⟩ | hxg))
                  · exact Or.inl ⟨hxr, Or.inl hxe⟩
                  · exact Or.inl ⟨hxr, Or.inr hxes⟩
                  · exact Or.inr hxg
                · rintro (⟨hxr, hxe | hxes⟩ | hxg)
                  · exact Or.inl ⟨hxe, hxr⟩
                  · by_cases hxe : x ∈ e.docs
                    · exact Or.inl ⟨hxe, hxr⟩
                    · exact Or.inr (Or.inl ⟨⟨hxr, fun hc => hxe hc.1⟩,
                        hxes⟩)
                  · exact Or.inr (Or.inr hxg)
              · refine List.Pairwise.cons ?_ hpw
                intro b hb
                have hbsub := hsub b hb
                rw [Finset.eq_empty_iff_forall_not_mem]
                intro x hx
                simp only [Finset.mem_inter] at hx
                have hxb := hbsub hx.2
                simp only [stack_rems, Finset.mem_union, Finset.mem_sdiff] at hxb
                rcases hxb with ⟨_, hnot⟩ | hxrest
                · exact hnot (Finset.mem_inter.mpr hx.1)
                · have hxr : x ∈ rem := hx.1.2
                  have := inter_stack_rems_empty rem rest hhead
                  rw [Finset.eq_empty_iff_forall_not_mem] at this
                  exact this x (Finset.mem_inter.mpr ⟨hxr, hxrest⟩)
              · intro b hb
                simp only [List.mem_cons] at hb
                rcases hb with hb | hb
                · subst hb
                  intro x hx
                  simp only [stack_rems, Finset.mem_union]
                  exact Or.inl (Finset.mem_inter.mp hx).2
                · intro x hx
                  have := hsub b hb hx
                  simp only [stack_rems, Finset.mem_union, Finset.mem_sdiff] at this ⊢
                  rcases this with ⟨h1, _⟩ | h1
                  · exact Or.inl h1
                  · exact Or.inr h1
            | succ k =>
              rw [drain_push T rem k e es rest hrem hB]
              have hsubk := sub_entries_length_le T k e.left e.right
              have hfuel2 : state_fuel T.length
                  ((e.docs ∩ rem, k, sub_entries T k e.left e.right) ::
                    (rem \ (e.docs ∩ rem), k + 1, es) :: rest) ≤ n := by
                simp only [state_fuel, List.length_cons] at hfuel ⊢
                have h4 := push_fuel_lt T.length k es.length
                  (sub_entries T k e.left e.right).length (state_fuel T.length rest) hsubk
                omega
              have he_mem : e ∈ level_entries T (k + 1) :=
                hwf (rem, k + 1, e :: es) (by simp) e (by simp)
              have hedocs := hkey k e he_mem
              have hwf2 : ∀ f ∈ (e.docs ∩ rem, k, sub_entries T k e.left e.right) ::
                  (rem \ (e.docs ∩ rem), k + 1, es) :: rest, ∀ e2 ∈ f.2.2,
                  e2 ∈ level_entries T f.2.1 := by
                intro f hf e2 he2
                rcases List.mem_cons.mp hf with h | h
                · subst h
                  exact sub_entries_mem T k e.left e.right e2 he2
                · rcases List.mem_cons.mp h with h | h
                  · subst h
                    exact hwf (rem, k + 1, e :: es) (by simp) e2
                      (List.mem_cons_of_mem e he2)
                  · exact hwrest f h e2 he2
              have hdisj2 : List.Pairwise (fun f g : FacetFrame => f.1 ∩ g.1 = ∅)
                  ((e.docs ∩ rem, k, sub_entries T k e.left e.right) ::
                    (rem \ (e.docs ∩ rem), k + 1, es) :: rest) := by
                refine List.pairwise_cons.mpr ⟨?_, List.pairwise_cons.mpr ⟨?_, htail⟩⟩
                · intro g hg
                  rcases List.mem_cons.mp hg with h | h
                  · subst h
                    rw [Finset.eq_empty_iff_forall_not_mem]
                    intro x hx
                    simp only [Finset.mem_inter, Finset.mem_sdiff] at hx
                    exact hx.2.2 hx.1
                  · have hg2 := hhead g h
                    rw [Finset.eq_empty_iff_forall_not_mem] at hg2 ⊢
                    intro x hx
                    simp only [Finset.mem_inter] at hx
                    exact hg2 x (Finset.mem_inter.mpr
                      ⟨hx.1.2, hx.2⟩)
                · intro g hg
                  have hg2 := hhead g hg
                  rw [Finset.eq_empty_iff_forall_not_mem] at hg2 ⊢
                  intro x hx
                  simp only [Finset.mem_inter, Finset.mem_sdiff] at hx
                  exact hg2 x (Finset.mem_inter.mpr ⟨hx.1.1, hx.2⟩)
              obtain ⟨hu, hpw, hsub⟩ := ih _ hfuel2 hwf2 hdisj2
              refine ⟨?_, hpw, ?_⟩
              · rw [hu]
                simp only [stack_goal]
                have hBe : (e.docs ∩ rem) ∩ union_docs (sub_entries T k e.left e.right) =
                    e.docs ∩ rem := by
                  rw [← hedocs]
                  ext x
                  simp only [Finset.mem_inter]
                  tauto
                rw [hBe]
                ext x
                simp only [Finset.mem_union, Finset.mem_inter, Finset.mem_sdiff,
                  show union_docs (e :: es) = e.docs ∪ union_docs es from rfl]
                constructor
                · rintro (⟨hxe, hxr⟩ | (⟨⟨hxr, _⟩, hxes⟩ | hxg))
                  · exact Or.inl ⟨hxr, Or.inl hxe⟩
                  · exact Or.inl ⟨hxr, Or.inr hxes⟩
                  · exact Or.inr hxg
                · rintro (⟨hxr, hxe | hxes⟩ | hxg)
                  · exact Or.inl ⟨hxe, hxr⟩
                  · by_cases hxe : x ∈ e.docs
                    · exact Or.inl ⟨hxe, hxr⟩
                    · exact Or.inr (Or.inl ⟨⟨hxr, fun hc => hxe hc.1⟩,
                        hxes⟩)
                  · exact Or.inr (Or.inr hxg)
              · intro b hb
                intro x hx
                have := hsub b hb hx
                simp only [stack_rems, Finset.mem_union, Finset.mem_inter,
                  Finset.mem_sdiff] at this ⊢
                rcases this with ⟨_, h1⟩ | (⟨h1, _⟩ | h1)
                · exact Or.inl h1
                · exact Or.inl h1
                · exact Or.inr h1

/-- C4 counterexample: a six-entry facet table satisfying every invariant of
§3 as the spec states them — strictly increasing keys, singleton level-0
ranges, per-level disjointness, per-level coverage of every level-0 value, and
each higher bitmap equal to the union of the level-0 bitmaps inside its range
— on which the reducing drain of §5.2 started at `{1, 2}` nevertheless loses
document `1`: the level-1 entry `[0, 6]` straddles the level-2 boundary
`[0, 5]`, so the sub-scan under the level-2 entry truncates before it. -/
theorem c4_counterexample :
    spec_facet_invariants
      ([⟨0, 0, 0, {1}⟩, ⟨0, 7, 7, {2}⟩, ⟨1, 0, 6, {1}⟩, ⟨1, 7, 10, {2}⟩,
        ⟨2, 0, 5, {1}⟩, ⟨2, 6, 10, {2}⟩] : List FacetEntry) ∧
    ¬ reducing_drain_ok
      ([⟨0, 0, 0, {1}⟩, ⟨0, 7, 7, {2}⟩, ⟨1, 0, 6, {1}⟩, ⟨1, 7, 10, {2}⟩,
        ⟨2, 0, 5, {1}⟩, ⟨2, 6, 10, {2}⟩] : List FacetEntry) ({1, 2} : Finset Nat) := by
  decide

/-- C4 (amended): under the operational facet-tree invariants — every entry
above level `0` carries exactly the union of the bitmaps the sub-scan it
triggers delivers, and the highest level covers the same documents of the
start set as level `0` — draining a reducing `FacetIter` emits pairwise
disjoint bitmaps whose union is the start set intersected with the union of
the level-0 bitmaps. -/
theorem c4_reducing_drain_amended (T : List FacetEntry) (start : Finset Nat)
    (hkey : ∀ e ∈ T, e.level ≠ 0 →
      e.docs = union_docs (sub_entries T (e.level - 1) e.left e.right))
    (htop : start ∩ union_docs (level_entries T (highest_level T)) =
      start ∩ union_docs (level_entries T 0)) :
    reducing_drain_ok T start := by
  have hkey2 : ∀ k, ∀ e ∈ level_entries T (k + 1),
      e.docs = union_docs (sub_entries T k e.left e.right) := by
    intro k e he
    have he2 := List.mem_filter.mp he
    have hlvl : e.level = k + 1 := by
      have := he2.2
      simpa using this
    have hk := hkey e he2.1 (by omega)
    rw [hlvl] at hk
    simpa using hk
  obtain ⟨hu, hpw, _⟩ := drain_invariant T hkey2
    (state_fuel T.length (new_reducing T start)) (new_reducing T start) le_rfl
    (by
      intro f hf e2 he2
      simp only [new_reducing, List.mem_singleton] at hf
      subst hf
      exact he2)
    (by simp [new_reducing])
  refine ⟨hpw, ?_⟩
  rw [hu]
  simp only [new_reducing, stack_goal]
  rw [Finset.union_empty]
  exact htop

/-- Closed instance of the amended C4 contract on a five-entry two-level
table whose level-1 ranges align with the level-0 values they cover. -/
theorem c4_reducing_drain_amended_witness :
    reducing_drain_ok
      ([⟨0, 0, 0, {1}⟩, ⟨0, 10, 10, {2, 3}⟩, ⟨0, 60, 60, {4}⟩,
        ⟨1, 0, 50, {1, 2, 3}⟩, ⟨1, 51, 100, {4}⟩] : List FacetEntry)
      ({1, 2, 3, 4} : Finset Nat) :=
  c4_reducing_drain_amended _ _ (by decide) (by decide)

/-- Closed instance of the amended C3 contract at the cross-attribute test
input `(1004, 8, [900, 913, 1000, 1012, 2012])`. -/
theorem c3_best_proximity_for_amended_witness :
    (List.Sorted (· < ·) [900, 913, 1000, 1012, 2012] ∧ (1000 : Nat) ≤ 1004) ∧
    ((best_proximity_for 1004 8 [900, 913, 1000, 1012, 2012] = none ↔
      [900, 913, 1000, 1012, 2012].filter (fun q => 8 ≤ pair_cost 1004 q) = []) ∧
    (∀ c' ps, best_proximity_for 1004 8 [900, 913, 1000, 1012, 2012] = some (c', ps) →
      8 ≤ c' ∧ ps = [900, 913, 1000, 1012, 2012].filter (fun q => pair_cost 1004 q = c') ∧
      ps ≠ [] ∧
      ∀ q ∈ [900, 913, 1000, 1012, 2012], 8 ≤ pair_cost 1004 q → c' ≤ pair_cost 1004 q)) :=
  ⟨⟨by decide, by decide⟩,
    c3_best_proximity_for_amended 1004 8 [900, 913, 1000, 1012, 2012] (by decide) (by decide)⟩

end Milli
